import Mathlib

/-! Verification development for `words.cpp`.

A shallow embedding of the text-normalisation pipeline of `process_file`
(`src/words.cpp`): the token cleaner `clean`, the case folder
`to_lower_ru_utf8`, the code-point helpers `pop_utf8` and `utf8_len`, the
suffix stemmer `stem` and the two loops of the driver.

A `std::string` is modelled as a list of bytes, each byte a natural number
(`unsigned char`, so `< 256` on every real input).  Loops over a byte index are
modelled as recursive functions on the pair (string, index) with a fuel
argument that is instantiated with the length of the string; a lemma for each
loop shows that this fuel is never exhausted.

The definitions come first: the functions of the source, the UTF-8 decoder and
the other notions the statements are phrased in, the list-recursive views used
in the proofs, and a second, bounds-checked transcription of the functions.
The theorems follow, grouped by function.
-/

namespace Words

/-- A `std::string`: the sequence of its bytes, as `unsigned char` values. -/
abbrev Bytes := List Nat

/-! ## Character classification (`<cctype>`, "C" locale) -/

/-- `std::tolower` in the "C" locale: only `A`..`Z` are changed. -/
def tolower (c : Nat) : Nat :=
  if 0x41 ≤ c ∧ c ≤ 0x5A then c + 0x20 else c

/-- `std::ispunct` in the "C" locale: the printable ASCII characters that are
neither alphanumeric nor the space. -/
def ispunct (c : Nat) : Bool :=
  (0x21 ≤ c && c ≤ 0x2F) || (0x3A ≤ c && c ≤ 0x40) ||
  (0x5B ≤ c && c ≤ 0x60) || (0x7B ≤ c && c ≤ 0x7E)

/-! ## `to_lower_ru_utf8` (words.cpp, lines 23-66) -/

/-- The expression `(c < 0xE0) ? 2 : (c < 0xF0) ? 3 : 4` of line 62. -/
def skipStep (c : Nat) : Nat :=
  if c < 0xE0 then 2 else if c < 0xF0 then 3 else 4

/-- The `for (size_t i = 0; i < s.size(); )` loop of `to_lower_ru_utf8`:
one iteration per unit of fuel, the state being the string and the index. -/
def toLowerLoop : Nat → Bytes → Nat → Bytes
  | 0, s, _ => s
  | fuel + 1, s, i =>
    if h : i < s.length then
      let c := s[i]
      if c < 0x80 then
        toLowerLoop fuel (s.set i (tolower c)) (i + 1)
      else if h1 : c = 0xD0 ∧ i + 1 < s.length then
        have h2 : i + 1 < s.length := h1.2
        let c2 := s[i + 1]
        if c2 = 0x81 then
          toLowerLoop fuel ((s.set i 0xD1).set (i + 1) 0x91) (i + 2)
        else if 0x90 ≤ c2 ∧ c2 ≤ 0x9F then
          toLowerLoop fuel (s.set (i + 1) ((c2 + 0x20) % 256)) (i + 2)
        else if 0xA0 ≤ c2 ∧ c2 ≤ 0xAF then
          toLowerLoop fuel ((s.set i 0xD1).set (i + 1) ((c2 - 0x20) % 256)) (i + 2)
        else
          toLowerLoop fuel s (i + skipStep c)
      else
        toLowerLoop fuel s (i + skipStep c)
    else s

/-- The case folder: the loop started at index 0.  Every iteration advances the
index by at least one, so `s.length` iterations always suffice. -/
def to_lower_ru_utf8 (s : Bytes) : Bytes :=
  toLowerLoop s.length s 0

/-! ## `clean` (words.cpp, lines 16-20) -/

/-- The loop `while (!s.empty() && std::ispunct(s.back())) s.pop_back();`. -/
def cleanBack : Nat → Bytes → Bytes
  | 0, s => s
  | fuel + 1, s =>
    if h : s ≠ [] then
      if ispunct (s.getLast h) then cleanBack fuel s.dropLast else s
    else s

/-- The loop `while (!s.empty() && std::ispunct(s.front())) s.erase(s.begin());`. -/
def cleanFront : Bytes → Bytes
  | [] => []
  | b :: rest => if ispunct b then cleanFront rest else b :: rest

/-- The token cleaner: the trailing loop, then the leading loop. -/
def clean (s : Bytes) : Bytes :=
  cleanFront (cleanBack s.length s)

/-! ## `pop_utf8` and `utf8_len` (words.cpp, lines 69-86) -/

/-- The loop `while (i > 0 && ((s[i] & 0xC0) == 0x80)) --i;` of `pop_utf8`,
returning the final value of `i`. -/
def popScan (s : Bytes) : (i : Nat) → i < s.length → Nat
  | 0, _ => 0
  | i + 1, h =>
    if s[i + 1] &&& 0xC0 = 0x80 then popScan s i (Nat.lt_of_succ_lt h) else i + 1

/-- Function `pop_utf8`: nothing on the empty string, otherwise `s.erase(i)` (which
removes everything from index `i` on) for the index found by the scan. -/
def pop_utf8 (s : Bytes) : Bytes :=
  if h : s = [] then s
  else s.take (popScan s (s.length - 1) (Nat.sub_lt (List.length_pos.mpr h) Nat.one_pos))

/-- The expression
`(c < 0x80) ? 1 : ((c & 0xE0) == 0xC0) ? 2 : ((c & 0xF0) == 0xE0) ? 3 : 4`. -/
def lenStep (c : Nat) : Nat :=
  if c < 0x80 then 1
  else if c &&& 0xE0 = 0xC0 then 2
  else if c &&& 0xF0 = 0xE0 then 3
  else 4

/-- The `for` loop of `utf8_len`; the state is the index `i` and the counter `n`. -/
def utf8LenLoop : Nat → Bytes → Nat → Nat → Nat
  | 0, _, _, n => n
  | fuel + 1, s, i, n =>
    if h : i < s.length then utf8LenLoop fuel s (i + lenStep s[i]) (n + 1) else n

/-- Function `utf8_len`: the loop started with `i = 0`, `n = 0`. -/
def utf8_len (s : Bytes) : Nat :=
  utf8LenLoop s.length s 0 0

/-! ## `ends_with`, the suffix table and `stem` (words.cpp, lines 88-140) -/

/-- Function `ends_with`:
`s.size() >= suf.size() && s.compare(s.size() - suf.size(), suf.size(), suf) == 0`. -/
def ends_with (s suf : Bytes) : Bool :=
  decide (suf.length ≤ s.length) &&
    ((s.drop (s.length - suf.length)).take suf.length == suf)

/-! The UTF-8 encodings of the lower-case Russian letters used by the table. -/

/-- Letter а (U+0430). -/
def ru_a : Bytes := [0xD0, 0xB0]
/-- Letter в (U+0432). -/
def ru_v : Bytes := [0xD0, 0xB2]
/-- Letter е (U+0435). -/
def ru_e : Bytes := [0xD0, 0xB5]
/-- Letter и (U+0438). -/
def ru_i : Bytes := [0xD0, 0xB8]
/-- Letter й (U+0439). -/
def ru_j : Bytes := [0xD0, 0xB9]
/-- Letter м (U+043C). -/
def ru_m : Bytes := [0xD0, 0xBC]
/-- Letter о (U+043E). -/
def ru_o : Bytes := [0xD0, 0xBE]
/-- Letter р (U+0440). -/
def ru_r : Bytes := [0xD1, 0x80]
/-- Letter с (U+0441). -/
def ru_s : Bytes := [0xD1, 0x81]
/-- Letter т (U+0442). -/
def ru_t : Bytes := [0xD1, 0x82]
/-- Letter у (U+0443). -/
def ru_u : Bytes := [0xD1, 0x83]
/-- Letter х (U+0445). -/
def ru_h : Bytes := [0xD1, 0x85]
/-- Letter ы (U+044B). -/
def ru_y : Bytes := [0xD1, 0x8B]
/-- Letter ь (U+044C). -/
def ru_soft : Bytes := [0xD1, 0x8C]
/-- Letter ю (U+044E). -/
def ru_yu : Bytes := [0xD1, 0x8E]
/-- Letter я (U+044F). -/
def ru_ya : Bytes := [0xD1, 0x8F]

/-- The table `suffixes` (lines 94-116), in source order. -/
def suffixes : List (Bytes × Nat) :=
  [ (ru_s ++ ru_ya, 2), (ru_s ++ ru_soft, 2),            -- "ся", "сь"
    (ru_u ++ ru_e ++ ru_t, 3),                            -- "ует"
    (ru_u ++ ru_ya, 2),                                   -- "уя"
    (ru_a ++ ru_e ++ ru_t, 3),                            -- "ает"
    (ru_ya ++ ru_e ++ ru_t, 3),                           -- "яет"
    (ru_yu ++ ru_t, 2),                                   -- "ют"
    (ru_i ++ ru_v, 2),                                    -- "ив"
    (ru_ya ++ ru_m ++ ru_i, 3), (ru_a ++ ru_m ++ ru_i, 3),  -- "ями", "ами"
    (ru_y ++ ru_m ++ ru_i, 3), (ru_i ++ ru_m ++ ru_i, 3),   -- "ыми", "ими"
    (ru_y ++ ru_m, 2), (ru_i ++ ru_m, 2),                 -- "ым", "им"
    (ru_a ++ ru_h, 2), (ru_ya ++ ru_h, 2),                -- "ах", "ях"
    (ru_a ++ ru_m, 2), (ru_ya ++ ru_m, 2),                -- "ам", "ям"
    (ru_o ++ ru_m, 2), (ru_e ++ ru_m, 2),                 -- "ом", "ем"
    (ru_o ++ ru_v, 2), (ru_e ++ ru_v, 2),                 -- "ов", "ев"
    (ru_o ++ ru_j, 2), (ru_e ++ ru_j, 2),                 -- "ой", "ей"
    (ru_y ++ ru_j, 2), (ru_i ++ ru_j, 2),                 -- "ый", "ий"
    (ru_a ++ ru_ya, 2), (ru_ya ++ ru_ya, 2),              -- "ая", "яя"
    (ru_y ++ ru_e, 2), (ru_i ++ ru_e, 2),                 -- "ые", "ие"
    (ru_y ++ ru_h, 2), (ru_i ++ ru_h, 2),                 -- "ых", "их"
    (ru_u ++ ru_yu, 2), (ru_yu ++ ru_yu, 2),              -- "ую", "юю"
    (ru_a, 1), (ru_ya, 1), (ru_y, 1), (ru_i, 1),          -- "а", "я", "ы", "и"
    (ru_o, 1), (ru_e, 1), (ru_u, 1), (ru_yu, 1),          -- "о", "е", "у", "ю"
    (ru_soft, 1), (ru_j, 1) ]                             -- "ь", "й"

/-- The inner loop `for (int j = 0; j < k; ++j) pop_utf8(s);`. -/
def popN : Nat → Bytes → Bytes
  | 0, s => s
  | k + 1, s => popN k (pop_utf8 s)

/-- The loop `for (const auto& p : suffixes)` of `stem`, over the remaining
entries of the table; `L` is the character count computed on entry. -/
def stemLoop (s : Bytes) (L : Nat) : List (Bytes × Nat) → Bytes
  | [] => s
  | (suf, k) :: rest =>
    if ends_with s suf && decide (L > k + 1) then popN k s
    else stemLoop s L rest

/-- Function `stem` (lines 118-140). -/
def stem (s : Bytes) : Bytes :=
  let L := utf8_len s
  if L ≤ 3 then s
  else if ends_with s (ru_e ++ ru_r) && decide (L > 3) then
    pop_utf8 (pop_utf8 s) ++ ru_r
  else stemLoop s L suffixes

/-! ## The driver loops of `process_file` (words.cpp, lines 142-166) -/

/-- The token loop `for (std::string w; in >> w; )`: the raw tokens still to be
read and the vector `words` built so far. -/
def readWords : List Bytes → List Bytes → List Bytes
  | [], words => words
  | w :: rest, words =>
    let w1 := clean w
    let w2 := to_lower_ru_utf8 w1
    if w2.isEmpty || w2 == [0x2D] then readWords rest words
    else readWords rest (words ++ [w2])

/-- The value an `int` counter holds after an arithmetic result `x`: the 32-bit
two's-complement value congruent to `x`.  Inside the range of `int`, from
`-2^31` to `2^31 - 1`, it is `x` itself; outside of it (signed overflow, on
which the language sets no result) it is the wrapped value that the increment
instruction of the usual 32-bit `int` produces. -/
def wrapInt32 (x : Int) : Int :=
  (x + 2147483648) % 4294967296 - 2147483648

/-- The body of the `std::for_each` lambda: one word is stemmed and tallied into
the pair (`uniq`, `counts`); `counts` is a `std::vector<int>`, and `counts[...]++`
is an increment of a 32-bit `int`. -/
def countStep (st : List Bytes × List Int) (w : Bytes) : List Bytes × List Int :=
  let key := stem w
  let it := st.1.indexOf key
  if it = st.1.length then (st.1 ++ [key], st.2 ++ [1])
  else (st.1, st.2.set it (wrapInt32 (st.2.getD it 0 + 1)))

/-- The counting pass over `words`, from empty `uniq` and `counts`. -/
def countWords (words : List Bytes) : List Bytes × List Int :=
  words.foldl countStep ([], [])

/-- What `process_file` computes from the raw tokens of a readable file: the
display sequence and the frequency table. -/
def process_tokens (toks : List Bytes) : List Bytes × (List Bytes × List Int) :=
  let words := readWords toks []
  (words, countWords words)

/-! ## UTF-8 well-formedness and code points (the vocabulary of the claims) -/

/-- A continuation byte `10xxxxxx`. -/
def isCont (b : Nat) : Bool :=
  decide (0x80 ≤ b) && decide (b ≤ 0xBF)

/-- The UTF-8 decoder of the Unicode standard (table 3-7, well-formed UTF-8 byte
sequences): the code points of `s`, or `none` when `s` is not well-formed
(stray or missing continuation bytes, overlong forms, surrogates and values
above U+10FFFF are rejected). -/
def decode : Bytes → Option (List Nat)
  | [] => some []
  | b0 :: rest =>
    if b0 < 0x80 then (decode rest).map (b0 :: ·)
    else if 0xC2 ≤ b0 ∧ b0 ≤ 0xDF then
      match rest with
      | b1 :: r1 =>
        if isCont b1 then
          (decode r1).map (((b0 - 0xC0) * 64 + (b1 - 0x80)) :: ·)
        else none
      | _ => none
    else if 0xE0 ≤ b0 ∧ b0 ≤ 0xEF then
      match rest with
      | b1 :: b2 :: r2 =>
        if isCont b1 && isCont b2 && decide (b0 = 0xE0 → 0xA0 ≤ b1) &&
            decide (b0 = 0xED → b1 ≤ 0x9F) then
          (decode r2).map
            (((b0 - 0xE0) * 4096 + (b1 - 0x80) * 64 + (b2 - 0x80)) :: ·)
        else none
      | _ => none
    else if 0xF0 ≤ b0 ∧ b0 ≤ 0xF4 then
      match rest with
      | b1 :: b2 :: b3 :: r3 =>
        if isCont b1 && isCont b2 && isCont b3 && decide (b0 = 0xF0 → 0x90 ≤ b1) &&
            decide (b0 = 0xF4 → b1 ≤ 0x8F) then
          (decode r3).map
            (((b0 - 0xF0) * 262144 + (b1 - 0x80) * 4096 + (b2 - 0x80) * 64
              + (b3 - 0x80)) :: ·)
        else none
      | _ => none
    else none

/-- Well-formed UTF-8: the decoder succeeds. -/
def wellFormed (s : Bytes) : Bool :=
  (decode s).isSome

/-- The case mapping the folder is meant to realise, on code points: `A`..`Z`,
U+0401 and U+0410..U+042F go to their lower-case letters, anything else stays. -/
def lowerCp (cp : Nat) : Nat :=
  if 0x41 ≤ cp ∧ cp ≤ 0x5A then cp + 0x20
  else if cp = 0x401 then 0x451
  else if 0x410 ≤ cp ∧ cp ≤ 0x42F then cp + 0x20
  else cp

/-! ## List-recursive views of the index loops (used in the proofs) -/

/-- What the loop of `to_lower_ru_utf8` does to the part of the string from the
current index on, one character at a time. -/
def lowerList : Bytes → Bytes
  | [] => []
  | c :: rest =>
    if c < 0x80 then tolower c :: lowerList rest
    else
      match rest with
      | c2 :: r2 =>
        if c = 0xD0 ∧ c2 = 0x81 then 0xD1 :: 0x91 :: lowerList r2
        else if c = 0xD0 ∧ 0x90 ≤ c2 ∧ c2 ≤ 0x9F then
          0xD0 :: (c2 + 0x20) % 256 :: lowerList r2
        else if c = 0xD0 ∧ 0xA0 ≤ c2 ∧ c2 ≤ 0xAF then
          0xD1 :: (c2 - 0x20) % 256 :: lowerList r2
        else
          c :: (c2 :: r2).take (skipStep c - 1)
            ++ lowerList ((c2 :: r2).drop (skipStep c - 1))
      | [] => [c]
termination_by s => s.length
decreasing_by
  all_goals simp_wf
  all_goals omega

/-- What the loop of `utf8_len` counts from the current index on. -/
def lenList : Bytes → Nat
  | [] => 0
  | c :: rest => 1 + lenList (rest.drop (lenStep c - 1))
termination_by s => s.length
decreasing_by
  simp_wf
  omega

/-- A string made of two-byte characters only, as `pop_utf8` sees them: a byte
that is not of the form `10xxxxxx` followed by one that is, repeatedly. -/
def leadContPairs : Bytes → Bool
  | [] => true
  | [_] => false
  | a :: b :: rest =>
    decide (¬ (a &&& 0xC0 = 0x80)) && decide (b &&& 0xC0 = 0x80) && leadContPairs rest

/-! ## Vocabulary of the claims about the frequency table -/

/-- A list with its later duplicates removed: every element is kept at its
first occurrence only, in the original order. -/
def firstOccurrences : List Bytes → List Bytes
  | [] => []
  | a :: l => a :: (firstOccurrences l).filter (fun b => decide (b ≠ a))

/-! ## A stemmer that picks the longest applicable suffix (for comparison) -/

/-- A table rule `(suf, k)` is applicable to `s`: `s` ends with `suf` and has more
than `k + 1` characters. -/
def applicable (s : Bytes) (p : Bytes × Nat) : Bool :=
  ends_with s p.1 && decide (utf8_len s > p.2 + 1)

/-- The rule with the longest suffix in a list of rules (the earliest one among
rules whose suffixes have the same length). -/
def longestRule : List (Bytes × Nat) → Option (Bytes × Nat)
  | [] => none
  | p :: rest =>
    match longestRule rest with
    | none => some p
    | some q => if p.1.length < q.1.length then some q else some p

/-- The stemmer that differs from `stem` only in the choice of the table rule: it
applies the longest applicable suffix of the table. -/
def stemLongest (s : Bytes) : Bytes :=
  let L := utf8_len s
  if L ≤ 3 then s
  else if ends_with s (ru_e ++ ru_r) && decide (L > 3) then
    pop_utf8 (pop_utf8 s) ++ ru_r
  else
    match longestRule (suffixes.filter (applicable s)) with
    | some p => popN p.2 s
    | none => s

/-! ## Bounds-checked execution

The same functions once more, with every access to the string made explicit
and checked against the current length: the result is `none` as soon as a byte
is read or written at an index that is not below the current length, when
`pop_back` or `erase` is applied outside its domain, or when a loop has not
finished within its fuel. -/

/-- The read `s[i]` (also `s.back()` and `s.front()`), defined for `i < s.size()`. -/
def readAt (s : Bytes) (i : Nat) : Option Nat :=
  s[i]?

/-- The write `s[i] = v`, defined for `i < s.size()`. -/
def writeAt (s : Bytes) (i v : Nat) : Option Bytes :=
  if i < s.length then some (s.set i v) else none

/-- The call `s.pop_back()`, defined on a non-empty string. -/
def popBackChecked (s : Bytes) : Option Bytes :=
  if s = [] then none else some s.dropLast

/-- The call `s.erase(s.begin())`, defined on a non-empty string. -/
def eraseFirstChecked (s : Bytes) : Option Bytes :=
  if s = [] then none else some s.tail

/-- The call `s.erase(i)`, defined for `i ≤ s.size()`. -/
def eraseFromChecked (s : Bytes) (i : Nat) : Option Bytes :=
  if i ≤ s.length then some (s.take i) else none

/-- The loop of `to_lower_ru_utf8` with checked accesses. -/
def toLowerLoopChecked : Nat → Bytes → Nat → Option Bytes
  | 0, s, i => if i < s.length then none else some s
  | fuel + 1, s, i =>
    if i < s.length then do
      let c ← readAt s i
      if c < 0x80 then do
        let s1 ← writeAt s i (tolower c)
        toLowerLoopChecked fuel s1 (i + 1)
      else if c = 0xD0 ∧ i + 1 < s.length then do
        let c2 ← readAt s (i + 1)
        if c2 = 0x81 then do
          let s1 ← writeAt s i 0xD1
          let s2 ← writeAt s1 (i + 1) 0x91
          toLowerLoopChecked fuel s2 (i + 2)
        else if 0x90 ≤ c2 ∧ c2 ≤ 0x9F then do
          let s1 ← writeAt s (i + 1) ((c2 + 0x20) % 256)
          toLowerLoopChecked fuel s1 (i + 2)
        else if 0xA0 ≤ c2 ∧ c2 ≤ 0xAF then do
          let s1 ← writeAt s i 0xD1
          let s2 ← writeAt s1 (i + 1) ((c2 - 0x20) % 256)
          toLowerLoopChecked fuel s2 (i + 2)
        else toLowerLoopChecked fuel s (i + skipStep c)
      else toLowerLoopChecked fuel s (i + skipStep c)
    else some s

/-- Function `to_lower_ru_utf8` with checked accesses. -/
def to_lower_ru_utf8_checked (s : Bytes) : Option Bytes :=
  toLowerLoopChecked s.length s 0

/-- The trailing loop of `clean` with checked accesses. -/
def cleanBackChecked : Nat → Bytes → Option Bytes
  | 0, s => if s = [] then some s else none
  | fuel + 1, s =>
    if s ≠ [] then do
      let b ← readAt s (s.length - 1)
      if ispunct b then do
        let s1 ← popBackChecked s
        cleanBackChecked fuel s1
      else some s
    else some s

/-- The leading loop of `clean` with checked accesses. -/
def cleanFrontChecked : Nat → Bytes → Option Bytes
  | 0, s => if s = [] then some s else none
  | fuel + 1, s =>
    if s ≠ [] then do
      let b ← readAt s 0
      if ispunct b then do
        let s1 ← eraseFirstChecked s
        cleanFrontChecked fuel s1
      else some s
    else some s

/-- Function `clean` with checked accesses. -/
def clean_checked (s : Bytes) : Option Bytes := do
  let s1 ← cleanBackChecked s.length s
  cleanFrontChecked s1.length s1

/-- The scan of `pop_utf8` with checked accesses. -/
def popScanChecked (s : Bytes) : Nat → Option Nat
  | 0 => some 0
  | i + 1 => do
    let c ← readAt s (i + 1)
    if c &&& 0xC0 = 0x80 then popScanChecked s i else some (i + 1)

/-- Function `pop_utf8` with checked accesses. -/
def pop_utf8_checked (s : Bytes) : Option Bytes :=
  if s = [] then some s
  else do
    let i ← popScanChecked s (s.length - 1)
    eraseFromChecked s i

/-- The loop of `utf8_len` with checked accesses. -/
def utf8LenLoopChecked : Nat → Bytes → Nat → Nat → Option Nat
  | 0, s, i, n => if i < s.length then none else some n
  | fuel + 1, s, i, n =>
    if i < s.length then do
      let c ← readAt s i
      utf8LenLoopChecked fuel s (i + lenStep c) (n + 1)
    else some n

/-- Function `utf8_len` with checked accesses. -/
def utf8_len_checked (s : Bytes) : Option Nat :=
  utf8LenLoopChecked s.length s 0 0

/-- Function `ends_with` with the range check of `std::string::compare`, which
is defined for a start position `≤ s.size()`. -/
def ends_with_checked (s suf : Bytes) : Option Bool :=
  if suf.length ≤ s.length then
    if s.length - suf.length ≤ s.length then
      some ((s.drop (s.length - suf.length)).take suf.length == suf)
    else none
  else some false

/-- The inner loop of `stem` with checked accesses. -/
def popNChecked : Nat → Bytes → Option Bytes
  | 0, s => some s
  | k + 1, s => do
    let s1 ← pop_utf8_checked s
    popNChecked k s1

/-- The table loop of `stem` with checked accesses. -/
def stemLoopChecked (s : Bytes) (L : Nat) : List (Bytes × Nat) → Option Bytes
  | [] => some s
  | (suf, k) :: rest => do
    let e ← ends_with_checked s suf
    if e && decide (L > k + 1) then popNChecked k s
    else stemLoopChecked s L rest

/-- Function `stem` with checked accesses. -/
def stem_checked (s : Bytes) : Option Bytes := do
  let L ← utf8_len_checked s
  if L ≤ 3 then some s
  else do
    let e ← ends_with_checked s (ru_e ++ ru_r)
    if e && decide (L > 3) then do
      let s1 ← pop_utf8_checked s
      let s2 ← pop_utf8_checked s1
      some (s2 ++ ru_r)
    else stemLoopChecked s L suffixes

end Words

namespace Words

theorem toLowerLoop_length (fuel : Nat) (s : Bytes) (i : Nat) :
    (toLowerLoop fuel s i).length = s.length := by
  induction fuel generalizing s i with
  | zero => rfl
  | succ n ih =>
    unfold toLowerLoop
    by_cases h : i < s.length
    · rw [dif_pos h]
      dsimp only
      split_ifs <;> simp [ih]
    · rw [dif_neg h]

/-! ## The case folder as a list recursion -/

theorem take_succ_set (s : Bytes) (i v : Nat) (h : i < s.length) :
    (s.set i v).take (i + 1) = s.take i ++ [v] := by
  induction s generalizing i with
  | nil => simp at h
  | cons a t ih =>
    cases i with
    | zero => simp
    | succ j =>
      have hj : j < t.length := by simpa using h
      simp [ih j hj]

theorem drop_succ_set (s : Bytes) (i v : Nat) :
    (s.set i v).drop (i + 1) = s.drop (i + 1) := by
  induction s generalizing i with
  | nil => simp
  | cons a t ih =>
    cases i with
    | zero => simp
    | succ j => simp [ih j]

theorem take_two_set (s : Bytes) (i v w : Nat) (h : i + 1 < s.length) :
    ((s.set i v).set (i + 1) w).take (i + 2) = s.take i ++ [v, w] := by
  induction s generalizing i with
  | nil => simp at h
  | cons a t ih =>
    cases i with
    | zero =>
      cases t with
      | nil => simp at h
      | cons b u => simp
    | succ j =>
      have hj : j + 1 < t.length := by simpa using h
      simp [ih j hj]

theorem drop_two_set (s : Bytes) (i v w : Nat) :
    ((s.set i v).set (i + 1) w).drop (i + 2) = s.drop (i + 2) := by
  induction s generalizing i with
  | nil => simp
  | cons a t ih =>
    cases i with
    | zero => cases t <;> simp
    | succ j => simp [ih j]

theorem drop_eq_two_cons (s : Bytes) (i : Nat) (h : i + 1 < s.length) :
    s.drop i = s[i] :: s[i + 1] :: s.drop (i + 2) := by
  rw [List.drop_eq_getElem_cons (by omega), List.drop_eq_getElem_cons h]

theorem lowerList_nil : lowerList [] = [] := by
  rw [lowerList.eq_def]

theorem lowerList_ascii (c : Nat) (rest : Bytes) (h : c < 0x80) :
    lowerList (c :: rest) = tolower c :: lowerList rest := by
  conv_lhs => rw [lowerList.eq_def]
  simp only [if_pos h]

theorem lowerList_single (c : Nat) (h : ¬ c < 0x80) : lowerList [c] = [c] := by
  conv_lhs => rw [lowerList.eq_def]
  simp only [if_neg h]

theorem lowerList_yo (rest : Bytes) :
    lowerList (0xD0 :: 0x81 :: rest) = 0xD1 :: 0x91 :: lowerList rest := by
  conv_lhs => rw [lowerList.eq_def]
  simp

theorem lowerList_first (c2 : Nat) (rest : Bytes) (h : 0x90 ≤ c2 ∧ c2 ≤ 0x9F) :
    lowerList (0xD0 :: c2 :: rest) = 0xD0 :: (c2 + 0x20) % 256 :: lowerList rest := by
  conv_lhs => rw [lowerList.eq_def]
  have h1 : c2 ≠ 0x81 := by omega
  simp [h1, h]

theorem lowerList_second (c2 : Nat) (rest : Bytes) (h : 0xA0 ≤ c2 ∧ c2 ≤ 0xAF) :
    lowerList (0xD0 :: c2 :: rest) = 0xD1 :: (c2 - 0x20) % 256 :: lowerList rest := by
  conv_lhs => rw [lowerList.eq_def]
  have h1 : c2 ≠ 0x81 := by omega
  have h2 : ¬ (0x90 ≤ c2 ∧ c2 ≤ 0x9F) := by omega
  simp [h1, h2, h]

theorem lowerList_skip (c : Nat) (rest : Bytes) (h : ¬ c < 0x80)
    (hno : c = 0xD0 → ∀ c2 r2, rest = c2 :: r2 →
      c2 ≠ 0x81 ∧ ¬ (0x90 ≤ c2 ∧ c2 ≤ 0x9F) ∧ ¬ (0xA0 ≤ c2 ∧ c2 ≤ 0xAF)) :
    lowerList (c :: rest) =
      c :: rest.take (skipStep c - 1) ++ lowerList (rest.drop (skipStep c - 1)) := by
  cases rest with
  | nil =>
    conv_lhs => rw [lowerList.eq_def]
    simp [h, lowerList_nil]
  | cons c2 r2 =>
    conv_lhs => rw [lowerList.eq_def]
    by_cases hc : c = 0xD0
    · obtain ⟨h1, h2, h3⟩ := hno hc c2 r2 rfl
      simp [h, hc, h1, h2, h3]
    · simp [h, hc]

theorem take_succ_getElem (s : Bytes) (i : Nat) (h : i < s.length) :
    s.take (i + 1) = s.take i ++ [s[i]] := by
  rw [List.take_succ]; simp [h]

theorem take_add_getElem (s : Bytes) (i k : Nat) (h : i < s.length) :
    s.take (i + (k + 1)) = s.take i ++ s[i] :: (s.drop (i + 1)).take k := by
  rw [List.take_add, List.drop_eq_getElem_cons h, List.take_succ_cons]

theorem skipStep_pos (c : Nat) : 1 ≤ skipStep c - 1 := by
  unfold skipStep; split_ifs <;> omega

theorem toLowerLoop_eq (fuel : Nat) (s : Bytes) (i : Nat) (hf : s.length - i ≤ fuel) :
    toLowerLoop fuel s i = s.take i ++ lowerList (s.drop i) := by
  induction fuel generalizing s i with
  | zero =>
    have hi : s.length ≤ i := by omega
    simp [toLowerLoop, List.take_of_length_le hi, List.drop_of_length_le hi, lowerList_nil]
  | succ n ih =>
    unfold toLowerLoop
    by_cases h : i < s.length
    · rw [dif_pos h]
      dsimp only
      have hd := List.drop_eq_getElem_cons h
      split_ifs with hA hD hY hF hS
      · rw [ih _ _ (by simp; omega), take_succ_set _ _ _ h, drop_succ_set, hd,
          lowerList_ascii _ _ hA]
        simp
      · have hd2 := drop_eq_two_cons s i hD.2
        rw [ih _ _ (by simp; omega), take_two_set _ _ _ _ hD.2, drop_two_set, hd2]
        simp only [hD.1, hY]
        rw [lowerList_yo]
        simp
      · have hd2 := drop_eq_two_cons s i hD.2
        rw [ih _ _ (by simp; omega), take_succ_set _ _ _ hD.2, drop_succ_set, hd2,
          take_succ_getElem _ _ h]
        simp only [hD.1]
        rw [lowerList_first _ _ hF]
        simp
      · have hd2 := drop_eq_two_cons s i hD.2
        rw [ih _ _ (by simp; omega), take_two_set _ _ _ _ hD.2, drop_two_set, hd2]
        simp only [hD.1]
        rw [lowerList_second _ _ hS]
        simp
      · have hd2 := drop_eq_two_cons s i hD.2
        have hp := skipStep_pos s[i]
        rw [ih _ _ (by omega), hd, lowerList_skip _ _ hA (by
          intro _ c2 r2 hr
          have : s[i + 1] = c2 := by
            have h3 := List.drop_eq_getElem_cons hD.2
            rw [hr] at h3
            exact (List.cons.inj h3).1.symm
          subst this
          exact ⟨hY, hF, hS⟩)]
        obtain ⟨k, hk⟩ : ∃ k, skipStep s[i] = k + 1 := ⟨skipStep s[i] - 1, by omega⟩
        rw [hk, take_add_getElem s i k h]
        simp [Nat.add_comm, Nat.add_left_comm]
      · have hp := skipStep_pos s[i]
        rw [ih _ _ (by omega), hd, lowerList_skip _ _ hA (by
          intro hc c2 r2 hr
          exfalso
          apply hD
          refine ⟨hc, ?_⟩
          have := congrArg List.length hr
          simp at this
          omega)]
        obtain ⟨k, hk⟩ : ∃ k, skipStep s[i] = k + 1 := ⟨skipStep s[i] - 1, by omega⟩
        rw [hk, take_add_getElem s i k h]
        simp [Nat.add_comm, Nat.add_left_comm]
    · rw [dif_neg h]
      have hi : s.length ≤ i := by omega
      simp [List.take_of_length_le hi, List.drop_of_length_le hi, lowerList_nil]

/-- The fuel given to the loop of the case folder is never exhausted: any amount
of at least `s.length - i` gives the same result. -/
theorem toLowerLoop_fuel (f1 f2 : Nat) (s : Bytes) (i : Nat) (h1 : s.length - i ≤ f1)
    (h2 : s.length - i ≤ f2) : toLowerLoop f1 s i = toLowerLoop f2 s i := by
  rw [toLowerLoop_eq f1 s i h1, toLowerLoop_eq f2 s i h2]

theorem to_lower_eq_lowerList (s : Bytes) : to_lower_ru_utf8 s = lowerList s := by
  unfold to_lower_ru_utf8
  rw [toLowerLoop_eq _ _ _ (by omega)]
  simp

theorem tolower_lt (c : Nat) (h : c < 0x80) : tolower c < 0x80 := by
  unfold tolower; split_ifs <;> omega

theorem tolower_idem (c : Nat) : tolower (tolower c) = tolower c := by
  unfold tolower; split_ifs <;> omega

/-- A character that the folder steps over, followed by its (possibly truncated)
tail `a`: the next pass steps over the same bytes. -/
theorem lowerList_skip_append (c : Nat) (a Y : Bytes) (h : ¬ c < 0x80)
    (hno : c = 0xD0 → ∀ c2 r2, a ++ Y = c2 :: r2 →
      c2 ≠ 0x81 ∧ ¬ (0x90 ≤ c2 ∧ c2 ≤ 0x9F) ∧ ¬ (0xA0 ≤ c2 ∧ c2 ≤ 0xAF))
    (ha : a.length = skipStep c - 1 ∨ (a.length < skipStep c - 1 ∧ Y = [])) :
    lowerList (c :: (a ++ Y)) = c :: (a ++ lowerList Y) := by
  rw [lowerList_skip c (a ++ Y) h hno]
  rcases ha with ha | ⟨ha, rfl⟩
  · rw [← ha]; simp
  · simp [List.take_of_length_le (Nat.le_of_lt ha), List.drop_of_length_le (Nat.le_of_lt ha),
      lowerList_nil]

theorem lowerList_idem_aux (n : Nat) : ∀ s : Bytes, s.length ≤ n →
    lowerList (lowerList s) = lowerList s := by
  induction n with
  | zero =>
    intro s hs
    have : s = [] := List.eq_nil_of_length_eq_zero (by omega)
    subst this
    simp [lowerList_nil]
  | succ n ih =>
    intro s hs
    cases s with
    | nil => simp [lowerList_nil]
    | cons c rest =>
      have hr : rest.length ≤ n := by simpa using hs
      by_cases hA : c < 0x80
      · rw [lowerList_ascii c rest hA, lowerList_ascii _ _ (tolower_lt c hA), tolower_idem,
          ih rest hr]
      · by_cases hsp : ∃ c2 r2, c = 0xD0 ∧ rest = c2 :: r2 ∧
            (c2 = 0x81 ∨ (0x90 ≤ c2 ∧ c2 ≤ 0x9F) ∨ (0xA0 ≤ c2 ∧ c2 ≤ 0xAF))
        · obtain ⟨c2, r2, rfl, rfl, hc2⟩ := hsp
          have hr2 : r2.length ≤ n := by simp at hr; omega
          rcases hc2 with rfl | hF | hS
          · rw [lowerList_yo]
            have := lowerList_skip_append 0xD1 [0x91] (lowerList r2) (by omega)
              (by intro h; omega) (by left; simp [skipStep])
            simp only [List.singleton_append] at this
            rw [this, ih r2 hr2]
          · rw [lowerList_first _ _ hF]
            have := lowerList_skip_append 0xD0 [(c2 + 0x20) % 256] (lowerList r2) (by omega)
              (by
                intro _ d r hd
                simp only [List.singleton_append] at hd
                have := (List.cons.inj hd).1
                omega) (by left; simp [skipStep])
            simp only [List.singleton_append] at this
            rw [this, ih r2 hr2]
          · rw [lowerList_second _ _ hS]
            have := lowerList_skip_append 0xD1 [(c2 - 0x20) % 256] (lowerList r2) (by omega)
              (by intro h; omega) (by left; simp [skipStep])
            simp only [List.singleton_append] at this
            rw [this, ih r2 hr2]
        · have hno : c = 0xD0 → ∀ c2 r2, rest = c2 :: r2 →
              c2 ≠ 0x81 ∧ ¬ (0x90 ≤ c2 ∧ c2 ≤ 0x9F) ∧ ¬ (0xA0 ≤ c2 ∧ c2 ≤ 0xAF) := by
            intro hc c2 r2 hrest
            refine ⟨fun h => hsp ⟨c2, r2, hc, hrest, Or.inl h⟩,
              fun h => hsp ⟨c2, r2, hc, hrest, Or.inr (Or.inl h)⟩,
              fun h => hsp ⟨c2, r2, hc, hrest, Or.inr (Or.inr h)⟩⟩
          rw [lowerList_skip c rest hA hno]
          have hp := skipStep_pos c
          have key := lowerList_skip_append c (rest.take (skipStep c - 1))
            (lowerList (rest.drop (skipStep c - 1))) hA (by
              intro hc c2 r2 hcr
              cases rest with
              | nil => simp [lowerList_nil] at hcr
              | cons d r =>
                subst hc
                simp only [skipStep] at hcr
                simp at hcr
                rw [← hcr.1]
                exact hno rfl d r rfl) (by
              by_cases hl : skipStep c - 1 ≤ rest.length
              · left; simp [hl]
              · right
                refine ⟨by simp; omega, ?_⟩
                rw [List.drop_of_length_le (by omega), lowerList_nil])
          simp only [List.cons_append] at key ⊢
          rw [key, ih _ (by simp; omega)]

/-! ## The case folder on well-formed UTF-8 -/

theorem lowerCp_ascii (b : Nat) (h : b < 0x80) : lowerCp b = tolower b := by
  unfold lowerCp tolower; split_ifs <;> omega

theorem decode_nil : decode [] = some [] := rfl

theorem decode_cons (b0 : Nat) (rest : Bytes) : decode (b0 :: rest) =
    if b0 < 0x80 then (decode rest).map (b0 :: ·)
    else if 0xC2 ≤ b0 ∧ b0 ≤ 0xDF then
      match rest with
      | b1 :: r1 =>
        if isCont b1 then
          (decode r1).map (((b0 - 0xC0) * 64 + (b1 - 0x80)) :: ·)
        else none
      | _ => none
    else if 0xE0 ≤ b0 ∧ b0 ≤ 0xEF then
      match rest with
      | b1 :: b2 :: r2 =>
        if isCont b1 && isCont b2 && decide (b0 = 0xE0 → 0xA0 ≤ b1) &&
            decide (b0 = 0xED → b1 ≤ 0x9F) then
          (decode r2).map
            (((b0 - 0xE0) * 4096 + (b1 - 0x80) * 64 + (b2 - 0x80)) :: ·)
        else none
      | _ => none
    else if 0xF0 ≤ b0 ∧ b0 ≤ 0xF4 then
      match rest with
      | b1 :: b2 :: b3 :: r3 =>
        if isCont b1 && isCont b2 && isCont b3 && decide (b0 = 0xF0 → 0x90 ≤ b1) &&
            decide (b0 = 0xF4 → b1 ≤ 0x8F) then
          (decode r3).map
            (((b0 - 0xF0) * 262144 + (b1 - 0x80) * 4096 + (b2 - 0x80) * 64
              + (b3 - 0x80)) :: ·)
        else none
      | _ => none
    else none := by
  cases rest with
  | nil => rfl
  | cons b1 r1 =>
    cases r1 with
    | nil => rfl
    | cons b2 r2 =>
      cases r2 with
      | nil => rfl
      | cons b3 r3 => rfl

theorem decode_ascii (b : Nat) (rest : Bytes) (h : b < 0x80) :
    decode (b :: rest) = (decode rest).map (b :: ·) := by
  rw [decode_cons, if_pos h]

theorem decode_two (b b1 : Nat) (r1 : Bytes) (h : 0xC2 ≤ b ∧ b ≤ 0xDF)
    (hc : isCont b1 = true) :
    decode (b :: b1 :: r1) = (decode r1).map (((b - 0xC0) * 64 + (b1 - 0x80)) :: ·) := by
  rw [decode_cons, if_neg (by omega), if_pos h]
  simp only [if_pos hc]

theorem decode_three (b b1 b2 : Nat) (r2 : Bytes) (h : 0xE0 ≤ b ∧ b ≤ 0xEF)
    (hc : (isCont b1 && isCont b2 && decide (b = 0xE0 → 0xA0 ≤ b1) &&
            decide (b = 0xED → b1 ≤ 0x9F)) = true) :
    decode (b :: b1 :: b2 :: r2) =
      (decode r2).map (((b - 0xE0) * 4096 + (b1 - 0x80) * 64 + (b2 - 0x80)) :: ·) := by
  rw [decode_cons, if_neg (by omega), if_neg (by omega), if_pos h]
  simp only [if_pos hc]

theorem decode_four (b b1 b2 b3 : Nat) (r3 : Bytes) (h : 0xF0 ≤ b ∧ b ≤ 0xF4)
    (hc : (isCont b1 && isCont b2 && isCont b3 && decide (b = 0xF0 → 0x90 ≤ b1) &&
            decide (b = 0xF4 → b1 ≤ 0x8F)) = true) :
    decode (b :: b1 :: b2 :: b3 :: r3) =
      (decode r3).map (((b - 0xF0) * 262144 + (b1 - 0x80) * 4096 + (b2 - 0x80) * 64
              + (b3 - 0x80)) :: ·) := by
  rw [decode_cons, if_neg (by omega), if_neg (by omega), if_neg (by omega), if_pos h]
  simp only [if_pos hc]

/-- Inversion of a successful decoding: the string is empty or starts with one
of the four forms of an encoded character. -/
theorem decode_cases (s : Bytes) (cps : List Nat) (h : decode s = some cps) :
    (s = [] ∧ cps = []) ∨
    (∃ b rest t, s = b :: rest ∧ b < 0x80 ∧ decode rest = some t ∧ cps = b :: t) ∨
    (∃ b b1 rest t, s = b :: b1 :: rest ∧ (0xC2 ≤ b ∧ b ≤ 0xDF) ∧ isCont b1 = true ∧
      decode rest = some t ∧ cps = ((b - 0xC0) * 64 + (b1 - 0x80)) :: t) ∨
    (∃ b b1 b2 rest t, s = b :: b1 :: b2 :: rest ∧ (0xE0 ≤ b ∧ b ≤ 0xEF) ∧
      (isCont b1 && isCont b2 && decide (b = 0xE0 → 0xA0 ≤ b1) &&
        decide (b = 0xED → b1 ≤ 0x9F)) = true ∧
      decode rest = some t ∧
      cps = ((b - 0xE0) * 4096 + (b1 - 0x80) * 64 + (b2 - 0x80)) :: t) ∨
    (∃ b b1 b2 b3 rest t, s = b :: b1 :: b2 :: b3 :: rest ∧ (0xF0 ≤ b ∧ b ≤ 0xF4) ∧
      (isCont b1 && isCont b2 && isCont b3 && decide (b = 0xF0 → 0x90 ≤ b1) &&
        decide (b = 0xF4 → b1 ≤ 0x8F)) = true ∧
      decode rest = some t ∧
      cps = ((b - 0xF0) * 262144 + (b1 - 0x80) * 4096 + (b2 - 0x80) * 64
              + (b3 - 0x80)) :: t) := by
  cases s with
  | nil => left; exact ⟨rfl, by simpa [decode_nil] using h.symm⟩
  | cons b0 rest =>
    rw [decode_cons] at h
    right
    split_ifs at h with hA h2 h3 h4
    · left
      obtain ⟨t, ht, rfl⟩ := Option.map_eq_some'.mp h
      exact ⟨b0, rest, t, rfl, hA, ht, rfl⟩
    · right; left
      split at h
      · rename_i b1 r1
        split_ifs at h with hc
        obtain ⟨t, ht, rfl⟩ := Option.map_eq_some'.mp h
        exact ⟨b0, b1, r1, t, rfl, h2, hc, ht, rfl⟩
      · simp at h
    · right; right; left
      split at h
      · rename_i b1 b2 r2
        split_ifs at h with hc
        obtain ⟨t, ht, rfl⟩ := Option.map_eq_some'.mp h
        exact ⟨b0, b1, b2, r2, t, rfl, h3, hc, ht, rfl⟩
      · simp at h
    · right; right; right
      split at h
      · rename_i b1 b2 b3 r3
        split_ifs at h with hc
        obtain ⟨t, ht, rfl⟩ := Option.map_eq_some'.mp h
        exact ⟨b0, b1, b2, b3, r3, t, rfl, h4, hc, ht, rfl⟩
      · simp at h

theorem decode_lowerList_aux (n : Nat) : ∀ (s : Bytes) (cps : List Nat), s.length ≤ n →
    decode s = some cps → decode (lowerList s) = some (cps.map lowerCp) := by
  induction n with
  | zero =>
    intro s cps hs h
    have : s = [] := List.eq_nil_of_length_eq_zero (by omega)
    subst this
    rw [decode_nil] at h
    cases h
    simp [lowerList_nil, decode_nil]
  | succ n ih =>
    intro s cps hs h
    rcases decode_cases s cps h with ⟨rfl, rfl⟩ | ⟨b, rest, t, rfl, hb, ht, rfl⟩ |
      ⟨b, b1, rest, t, rfl, hb, hc, ht, rfl⟩ | ⟨b, b1, b2, rest, t, rfl, hb, hc, ht, rfl⟩ |
      ⟨b, b1, b2, b3, rest, t, rfl, hb, hc, ht, rfl⟩
    · simp [lowerList_nil, decode_nil]
    · have hr : rest.length ≤ n := by simp at hs; omega
      rw [lowerList_ascii b rest hb, decode_ascii _ _ (tolower_lt b hb), ih rest t hr ht]
      simp [lowerCp_ascii b hb]
    · have hr : rest.length ≤ n := by simp at hs; omega
      have hc1 := hc
      simp only [isCont, Bool.and_eq_true, decide_eq_true_eq] at hc1
      by_cases hD : b = 0xD0
      · subst hD
        by_cases hY : b1 = 0x81
        · subst hY
          rw [lowerList_yo, decode_two _ _ _ (by omega) (by decide), ih rest t hr ht]
          simp [lowerCp]
        · by_cases hF : 0x90 ≤ b1 ∧ b1 ≤ 0x9F
          · rw [lowerList_first _ _ hF, decode_two _ _ _ (by omega)
              (by simp only [isCont, Bool.and_eq_true, decide_eq_true_eq]; omega),
              ih rest t hr ht]
            simp only [Option.map_some', List.map_cons, Option.some.injEq, List.cons.injEq,
              and_true]
            unfold lowerCp
            split_ifs <;> omega
          · by_cases hS : 0xA0 ≤ b1 ∧ b1 ≤ 0xAF
            · rw [lowerList_second _ _ hS, decode_two _ _ _ (by omega)
                (by simp only [isCont, Bool.and_eq_true, decide_eq_true_eq]; omega),
                ih rest t hr ht]
              simp only [Option.map_some', List.map_cons, Option.some.injEq, List.cons.injEq,
                and_true]
              unfold lowerCp
              split_ifs <;> omega
            · rw [lowerList_skip _ _ (by omega) (by
                intro _ c2 r2 hcr
                obtain ⟨rfl, rfl⟩ := List.cons.inj hcr
                exact ⟨hY, hF, hS⟩)]
              simp only [skipStep]
              simp only [show (208 : Nat) < 224 from by omega, if_true, Nat.add_one_sub_one,
                List.take_succ_cons, List.take_zero, List.drop_succ_cons, List.drop_zero,
                List.cons_append, List.nil_append]
              rw [decode_two _ _ _ hb hc, ih rest t hr ht]
              simp only [Option.map_some', List.map_cons, Option.some.injEq, List.cons.injEq,
                and_true]
              unfold lowerCp
              split_ifs <;> omega
      · rw [lowerList_skip _ _ (by omega) (by intro h; exact absurd h hD)]
        have hsk : skipStep b = 2 := by unfold skipStep; split_ifs <;> omega
        simp only [hsk, Nat.add_one_sub_one,
          List.take_succ_cons, List.take_zero, List.drop_succ_cons, List.drop_zero,
          List.cons_append, List.nil_append]
        rw [decode_two _ _ _ hb hc, ih rest t hr ht]
        simp only [Option.map_some', List.map_cons, Option.some.injEq, List.cons.injEq,
          and_true]
        unfold lowerCp
        split_ifs <;> omega
    · have hr : rest.length ≤ n := by simp at hs; omega
      have hc1 := hc
      simp only [isCont, Bool.and_eq_true, decide_eq_true_eq] at hc1
      rw [lowerList_skip _ _ (by omega) (by intro h; omega)]
      have hsk : skipStep b = 3 := by unfold skipStep; split_ifs <;> omega
      simp only [hsk, Nat.add_one_sub_one,
        List.take_succ_cons, List.take_zero, List.drop_succ_cons, List.drop_zero,
        List.cons_append, List.nil_append]
      rw [decode_three _ _ _ _ hb hc, ih rest t hr ht]
      simp only [Option.map_some', List.map_cons, Option.some.injEq, List.cons.injEq,
        and_true]
      unfold lowerCp
      split_ifs <;> omega
    · have hr : rest.length ≤ n := by simp at hs; omega
      have hc1 := hc
      simp only [isCont, Bool.and_eq_true, decide_eq_true_eq] at hc1
      rw [lowerList_skip _ _ (by omega) (by intro h; omega)]
      have hsk : skipStep b = 4 := by unfold skipStep; split_ifs <;> omega
      simp only [hsk, Nat.add_one_sub_one,
        List.take_succ_cons, List.take_zero, List.drop_succ_cons, List.drop_zero,
        List.cons_append, List.nil_append]
      rw [decode_four _ _ _ _ _ hb hc, ih rest t hr ht]
      simp only [Option.map_some', List.map_cons, Option.some.injEq, List.cons.injEq,
        and_true]
      unfold lowerCp
      split_ifs <;> omega

/-! ## Claims about the case folder -/

/-- C1: on a well-formed UTF-8 string with code points `cps`, the case folder
returns a well-formed UTF-8 string whose code points are those of the input with
`A`..`Z` mapped to `a`..`z`, U+0401 to U+0451, U+0410..U+042F to the code point
0x20 higher, and every other code point unchanged (`cps.map lowerCp`). -/
theorem to_lower_ru_utf8_codepoints (s : Bytes) (cps : List Nat)
    (h : decode s = some cps) :
    wellFormed (to_lower_ru_utf8 s) = true ∧
      decode (to_lower_ru_utf8 s) = some (cps.map lowerCp) := by
  have key := decode_lowerList_aux s.length s cps (Nat.le_refl _) h
  rw [to_lower_eq_lowerList]
  exact ⟨by simp [wellFormed, key], key⟩

/-- The theorem of C1 at the bytes of "ДЁЯ Zж€" followed by U+1F600. -/
theorem to_lower_ru_utf8_codepoints_witness :
    decode [0xD0, 0x94, 0xD0, 0x81, 0xD0, 0xAF, 0x20, 0x5A, 0xD0, 0xB6, 0xE2, 0x82, 0xAC,
        0xF0, 0x9F, 0x98, 0x80]
      = some [0x414, 0x401, 0x42F, 0x20, 0x5A, 0x436, 0x20AC, 0x1F600] ∧
    wellFormed (to_lower_ru_utf8
      [0xD0, 0x94, 0xD0, 0x81, 0xD0, 0xAF, 0x20, 0x5A, 0xD0, 0xB6, 0xE2, 0x82, 0xAC,
        0xF0, 0x9F, 0x98, 0x80]) = true ∧
    decode (to_lower_ru_utf8
      [0xD0, 0x94, 0xD0, 0x81, 0xD0, 0xAF, 0x20, 0x5A, 0xD0, 0xB6, 0xE2, 0x82, 0xAC,
        0xF0, 0x9F, 0x98, 0x80])
      = some ([0x414, 0x401, 0x42F, 0x20, 0x5A, 0x436, 0x20AC, 0x1F600].map lowerCp) :=
  ⟨by decide, to_lower_ru_utf8_codepoints _ _ (by decide)⟩

/-- C2: the case folder preserves the byte length of every byte sequence,
well-formed or not. -/
theorem to_lower_ru_utf8_length (s : Bytes) :
    (to_lower_ru_utf8 s).length = s.length :=
  toLowerLoop_length s.length s 0

/-- C3: case folding is idempotent on every byte sequence. -/
theorem to_lower_ru_utf8_idempotent (s : Bytes) :
    to_lower_ru_utf8 (to_lower_ru_utf8 s) = to_lower_ru_utf8 s := by
  rw [to_lower_eq_lowerList, to_lower_eq_lowerList]
  exact lowerList_idem_aux s.length s (Nat.le_refl _)

/-! ## The token cleaner -/

theorem ispunct_ranges (b : Nat) : ispunct b = true ↔
    (0x21 ≤ b ∧ b ≤ 0x2F) ∨ (0x3A ≤ b ∧ b ≤ 0x40) ∨ (0x5B ≤ b ∧ b ≤ 0x60) ∨
      (0x7B ≤ b ∧ b ≤ 0x7E) := by
  simp only [ispunct, Bool.or_eq_true, Bool.and_eq_true, decide_eq_true_eq]
  omega

/-- The trailing loop removes a run `q` of punctuation bytes and stops at the empty
string or at a last byte that is not punctuation. -/
theorem cleanBack_spec (fuel : Nat) : ∀ s : Bytes, s.length ≤ fuel →
    ∃ q, s = cleanBack fuel s ++ q ∧ (∀ b ∈ q, ispunct b = true) ∧
      ∀ hne : cleanBack fuel s ≠ [], ispunct ((cleanBack fuel s).getLast hne) = false := by
  induction fuel with
  | zero =>
    intro s hs
    have : s = [] := List.eq_nil_of_length_eq_zero (by omega)
    subst this
    exact ⟨[], by simp [cleanBack], by simp, fun hne => absurd rfl hne⟩
  | succ n ih =>
    intro s hs
    by_cases hne : s ≠ []
    · by_cases hp : ispunct (s.getLast hne) = true
      · have e : cleanBack (n + 1) s = cleanBack n s.dropLast := by
          rw [cleanBack, dif_pos hne, if_pos hp]
        rw [e]
        obtain ⟨q, hq, hall, hlast⟩ := ih s.dropLast (by simp; omega)
        refine ⟨q ++ [s.getLast hne], ?_, ?_, hlast⟩
        · rw [← List.append_assoc, ← hq, List.dropLast_append_getLast hne]
        · intro b hb
          rcases List.mem_append.mp hb with hb | hb
          · exact hall b hb
          · rw [List.mem_singleton.mp hb]; exact hp
      · have e : cleanBack (n + 1) s = s := by
          rw [cleanBack, dif_pos hne, if_neg hp]
        rw [e]
        exact ⟨[], by simp, by simp, fun _ => by simpa using hp⟩
    · have e : cleanBack (n + 1) s = s := by
        rw [cleanBack, dif_neg hne]
      rw [e]
      exact ⟨[], by simp, by simp, fun h => absurd h hne⟩

/-- The fuel given to the trailing loop of `clean` is never exhausted: any amount
of at least `s.length` gives the same result. -/
theorem cleanBack_fuel (fuel : Nat) : ∀ s : Bytes, s.length ≤ fuel →
    cleanBack fuel s = cleanBack s.length s := by
  induction fuel with
  | zero =>
    intro s hs
    have : s = [] := List.eq_nil_of_length_eq_zero (by omega)
    subst this
    rfl
  | succ n ih =>
    intro s hs
    by_cases hne : s ≠ []
    · obtain ⟨m, hm⟩ : ∃ m, s.length = m + 1 :=
        ⟨s.length - 1, by have := List.length_pos.mpr hne; omega⟩
      have hdl : s.dropLast.length = m := by simp [hm]
      rw [hm]
      by_cases hp : ispunct (s.getLast hne) = true
      · rw [cleanBack, dif_pos hne, if_pos hp, cleanBack, dif_pos hne, if_pos hp,
          ih _ (by omega), hdl]
      · rw [cleanBack, dif_pos hne, if_neg hp, cleanBack, dif_pos hne, if_neg hp]
    · have : s = [] := by simpa using hne
      subst this
      rfl

/-- The leading loop removes a run `p` of punctuation bytes and stops at the empty
string or at a first byte that is not punctuation. -/
theorem cleanFront_spec (s : Bytes) :
    ∃ p, s = p ++ cleanFront s ∧ (∀ b ∈ p, ispunct b = true) ∧
      ∀ hne : cleanFront s ≠ [], ispunct ((cleanFront s).head hne) = false := by
  induction s with
  | nil => exact ⟨[], by simp [cleanFront], by simp, fun hne => absurd rfl hne⟩
  | cons a t ih =>
    by_cases hp : ispunct a = true
    · have e : cleanFront (a :: t) = cleanFront t := by
        rw [cleanFront, if_pos hp]
      rw [e]
      obtain ⟨p, hpq, hall, hhead⟩ := ih
      refine ⟨a :: p, by rw [List.cons_append, ← hpq], ?_, hhead⟩
      intro b hb
      rcases List.mem_cons.mp hb with rfl | hb
      · exact hp
      · exact hall b hb
    · have e : cleanFront (a :: t) = a :: t := by
        rw [cleanFront, if_neg hp]
      rw [e]
      exact ⟨[], by simp, by simp, fun _ => by simpa using hp⟩

theorem clean_decomp (s : Bytes) :
    ∃ p q, s = p ++ clean s ++ q ∧ (∀ b ∈ p, ispunct b = true) ∧
      (∀ b ∈ q, ispunct b = true) ∧
      ∀ hne : clean s ≠ [], ispunct ((clean s).head hne) = false ∧
        ispunct ((clean s).getLast hne) = false := by
  obtain ⟨q, hq, hqall, hlast⟩ := cleanBack_spec s.length s (Nat.le_refl _)
  obtain ⟨p, hp, hpall, hhead⟩ := cleanFront_spec (cleanBack s.length s)
  refine ⟨p, q, ?_, hpall, hqall, ?_⟩
  · unfold clean
    rw [← hp, ← hq]
  · intro hne
    refine ⟨hhead hne, ?_⟩
    have hb : cleanBack s.length s ≠ [] := by
      intro h0
      apply hne
      unfold clean
      rw [h0]; rfl
    have := hlast hb
    have e : (cleanBack s.length s).getLast hb = (clean s).getLast hne := by
      have h2 : (p ++ clean s).getLast (by simp [hne]) = (clean s).getLast hne :=
        List.getLast_append_right hne
      rw [← h2]
      congr 1
    rw [← e]; exact this

theorem clean_of_all_punct (t : Bytes) (ht : ∀ b ∈ t, ispunct b = true) : clean t = [] := by
  obtain ⟨p, q, hpq, _, _, hends⟩ := clean_decomp t
  by_contra hne
  have h1 := (hends hne).1
  have hmem : (clean t).head hne ∈ t := by
    have hm : (clean t).head hne ∈ p ++ clean t ++ q := by simp [List.head_mem]
    rw [← hpq] at hm
    exact hm
  rw [ht _ hmem] at h1
  exact absurd h1 (by decide)

/-- C8: `clean s` is `s` without a leading run `p` and a trailing run `q` of ASCII
punctuation bytes (bytes in 0x21-0x2F, 0x3A-0x40, 0x5B-0x60 or 0x7B-0x7E, hence
never a byte `≥ 0x80`); the runs are maximal, since `clean s` is empty or its
first and its last byte are not punctuation; and the bytes of "продаются,"
are cleaned to those of "продаются". -/
theorem clean_trims_punctuation (s : Bytes) :
    (∃ p q, s = p ++ clean s ++ q ∧
      (∀ b ∈ p ++ q, ispunct b = true ∧
        ((0x21 ≤ b ∧ b ≤ 0x2F) ∨ (0x3A ≤ b ∧ b ≤ 0x40) ∨ (0x5B ≤ b ∧ b ≤ 0x60) ∨
          (0x7B ≤ b ∧ b ≤ 0x7E)) ∧ b < 0x80)) ∧
    (∀ hne : clean s ≠ [], ispunct ((clean s).head hne) = false ∧
      ispunct ((clean s).getLast hne) = false) ∧
    clean [0xD0, 0xBF, 0xD1, 0x80, 0xD0, 0xBE, 0xD0, 0xB4, 0xD0, 0xB0, 0xD1, 0x8E, 0xD1, 0x82,
        0xD1, 0x81, 0xD1, 0x8F, 0x2C]
      = [0xD0, 0xBF, 0xD1, 0x80, 0xD0, 0xBE, 0xD0, 0xB4, 0xD0, 0xB0, 0xD1, 0x8E, 0xD1, 0x82,
        0xD1, 0x81, 0xD1, 0x8F] := by
  obtain ⟨p, q, hpq, hp, hq, hends⟩ := clean_decomp s
  refine ⟨⟨p, q, hpq, ?_⟩, hends, by decide⟩
  intro b hb
  have hb2 : ispunct b = true := by
    rcases List.mem_append.mp hb with h | h
    · exact hp b h
    · exact hq b h
  have hr := (ispunct_ranges b).mp hb2
  exact ⟨hb2, hr, by omega⟩

/-! ## The token loop of the driver -/

theorem readWords_acc (toks : List Bytes) : ∀ words : List Bytes,
    readWords toks words = words ++
      (toks.map (fun w => to_lower_ru_utf8 (clean w))).filter
        (fun w => decide (w ≠ [] ∧ w ≠ [0x2D])) := by
  induction toks with
  | nil => intro words; simp [readWords]
  | cons w rest ih =>
    intro words
    unfold readWords
    dsimp only
    by_cases h : to_lower_ru_utf8 (clean w) = [] ∨ to_lower_ru_utf8 (clean w) = [0x2D]
    · have hc : ((to_lower_ru_utf8 (clean w)).isEmpty ||
          to_lower_ru_utf8 (clean w) == [0x2D]) = true := by
        rcases h with h | h <;> simp [h]
      have hd : decide (to_lower_ru_utf8 (clean w) ≠ [] ∧
          to_lower_ru_utf8 (clean w) ≠ [0x2D]) = false := by
        rcases h with h | h <;> simp [h]
      rw [if_pos hc, ih, List.map_cons, List.filter_cons_of_neg (by simp [hd])]
    · have h1 : to_lower_ru_utf8 (clean w) ≠ [] := fun e => h (Or.inl e)
      have h2 : to_lower_ru_utf8 (clean w) ≠ [0x2D] := fun e => h (Or.inr e)
      have hc : ¬ ((to_lower_ru_utf8 (clean w)).isEmpty ||
          to_lower_ru_utf8 (clean w) == [0x2D]) = true := by
        simp [h1, h2, List.isEmpty_iff]
      rw [if_neg hc, ih, List.map_cons, List.filter_cons_of_pos (by simp [h1, h2])]
      simp

theorem readWords_filter (toks : List Bytes) :
    readWords toks [] =
      (toks.map (fun w => to_lower_ru_utf8 (clean w))).filter
        (fun w => decide (w ≠ [] ∧ w ≠ [0x2D])) := by
  rw [readWords_acc]; simp

/-- C9: the display sequence built by the token loop is, in input order, the list
of `to_lower_ru_utf8 (clean w)` over the raw tokens `w`, keeping exactly the
results that are non-empty and different from "-". -/
theorem readWords_display (toks : List Bytes) :
    readWords toks [] =
      (toks.map (fun w => to_lower_ru_utf8 (clean w))).filter
        (fun w => decide (w ≠ [] ∧ w ≠ [0x2D])) :=
  readWords_filter toks

theorem to_lower_nil : to_lower_ru_utf8 [] = [] := rfl

/-- C10: a raw token made only of ASCII-punctuation bytes is cleaned to the empty
string, and inserting it anywhere in the token list changes neither the display
sequence nor the frequency table (keys and counts). -/
theorem punctuation_token_ignored (t : Bytes) (ht : ∀ b ∈ t, ispunct b = true) :
    clean t = [] ∧
    ∀ pre post : List Bytes,
      (process_tokens (pre ++ t :: post)).1 = (process_tokens (pre ++ post)).1 ∧
      (process_tokens (pre ++ t :: post)).2 = (process_tokens (pre ++ post)).2 := by
  have hc := clean_of_all_punct t ht
  refine ⟨hc, fun pre post => ?_⟩
  have hw : readWords (pre ++ t :: post) [] = readWords (pre ++ post) [] := by
    rw [readWords_filter, readWords_filter]
    simp [hc, to_lower_nil]
  simp only [process_tokens, hw, and_self]

/-- The theorem of C10 at the lone dash, with the token lists of the example
"добро - добро". -/
theorem punctuation_token_ignored_witness :
    (∀ b ∈ [0x2D], ispunct b = true) ∧ clean [0x2D] = [] ∧
    process_tokens ([[0xD0, 0xB4, 0xD0, 0xBE, 0xD0, 0xB1, 0xD1, 0x80, 0xD0, 0xBE]] ++
        [0x2D] :: [[0xD0, 0xB4, 0xD0, 0xBE, 0xD0, 0xB1, 0xD1, 0x80, 0xD0, 0xBE]]) =
      process_tokens ([[0xD0, 0xB4, 0xD0, 0xBE, 0xD0, 0xB1, 0xD1, 0x80, 0xD0, 0xBE]] ++
        [[0xD0, 0xB4, 0xD0, 0xBE, 0xD0, 0xB1, 0xD1, 0x80, 0xD0, 0xBE]]) :=
  ⟨by decide, (punctuation_token_ignored [0x2D] (by decide)).1,
    Prod.ext ((punctuation_token_ignored [0x2D] (by decide)).2 _ _).1
      ((punctuation_token_ignored [0x2D] (by decide)).2 _ _).2⟩

/-! ## `pop_utf8` on a trailing two-byte character -/

theorem popScan_stop (s : Bytes) (i : Nat) (h : i < s.length)
    (hs : ¬ (s[i] &&& 0xC0 = 0x80)) : popScan s i h = i := by
  cases i with
  | zero => rfl
  | succ j => rw [popScan, if_neg hs]

theorem popScan_step (s : Bytes) (j : Nat) (h : j + 1 < s.length)
    (hs : s[j + 1] &&& 0xC0 = 0x80) :
    popScan s (j + 1) h = popScan s j (Nat.lt_of_succ_lt h) := by
  rw [popScan, if_pos hs]

theorem getElem_pair_fst (x : Bytes) (a b : Nat) (h : x.length < (x ++ [a, b]).length) :
    (x ++ [a, b])[x.length] = a := by
  rw [List.getElem_append_right (Nat.le_refl _)]
  simp

theorem getElem_pair_snd (x : Bytes) (a b : Nat) (h : x.length + 1 < (x ++ [a, b]).length) :
    (x ++ [a, b])[x.length + 1] = b := by
  rw [List.getElem_append_right (Nat.le_succ _)]
  simp

theorem popScan_pair (x : Bytes) (a b : Nat) (ha : ¬ (a &&& 0xC0 = 0x80))
    (hb : b &&& 0xC0 = 0x80) (i : Nat) (h : i < (x ++ [a, b]).length)
    (hi : i = x.length + 1) : popScan (x ++ [a, b]) i h = x.length := by
  subst hi
  rw [popScan_step _ _ h (by rw [getElem_pair_snd]; exact hb)]
  exact popScan_stop _ _ _ (by rw [getElem_pair_fst]; exact ha)

/-- Removing one character from a string that ends with a lead byte followed by
one continuation byte removes exactly these two bytes, whatever precedes them. -/
theorem pop_utf8_pair (x : Bytes) (a b : Nat) (ha : ¬ (a &&& 0xC0 = 0x80))
    (hb : b &&& 0xC0 = 0x80) : pop_utf8 (x ++ [a, b]) = x := by
  unfold pop_utf8
  rw [dif_neg (by simp), popScan_pair x a b ha hb _ _ (by simp)]
  simp

theorem ends_with_append (x suf : Bytes) : ends_with (x ++ suf) suf = true := by
  simp [ends_with]

theorem ends_with_split (s suf : Bytes) (h : ends_with s suf = true) :
    ∃ x, s = x ++ suf := by
  simp only [ends_with, Bool.and_eq_true, decide_eq_true_eq, beq_iff_eq] at h
  obtain ⟨hl, he⟩ := h
  refine ⟨s.take (s.length - suf.length), ?_⟩
  have h2 : (s.drop (s.length - suf.length)).take suf.length
      = s.drop (s.length - suf.length) := by
    apply List.take_of_length_le
    simp
    omega
  rw [h2] at he
  conv_lhs => rw [← List.take_append_drop (s.length - suf.length) s]
  rw [he]

/-! ## The stemmer -/

theorem stemLoop_find (s : Bytes) (L : Nat) (tbl : List (Bytes × Nat)) :
    stemLoop s L tbl =
      match tbl.find? (fun p => ends_with s p.1 && decide (L > p.2 + 1)) with
      | some p => popN p.2 s
      | none => s := by
  induction tbl with
  | nil => rfl
  | cons p rest ih =>
    obtain ⟨suf, k⟩ := p
    by_cases h : (ends_with s suf && decide (L > k + 1)) = true
    · rw [stemLoop, if_pos h]
      simp only [List.find?_cons, h]
    · rw [stemLoop, if_neg h, ih]
      have h2 : (ends_with s suf && decide (L > k + 1)) = false := by simpa using h
      simp only [List.find?_cons, h2]

theorem stem_table_find (s : Bytes) (hL : 3 < utf8_len s)
    (her : ends_with s (ru_e ++ ru_r) = false) :
    stem s =
      match suffixes.find? (fun p => ends_with s p.1 && decide (utf8_len s > p.2 + 1)) with
      | some p => popN p.2 s
      | none => s := by
  unfold stem
  dsimp only
  rw [if_neg (by omega), her, Bool.false_and, if_neg (by simp), stemLoop_find]

/-- C4: for a token of more than 3 characters that does not end with "ер", the
result of `stem` is fixed by the first entry `(suf, k)` of the suffix table, in
table order, with `s` ending in `suf` and `utf8_len s > k + 1`: the result is `s`
after `k` calls of `pop_utf8`; without such an entry the token is returned
unchanged. -/
theorem stem_first_matching_rule (s : Bytes) (hL : 3 < utf8_len s)
    (her : ends_with s (ru_e ++ ru_r) = false) :
    stem s =
      match suffixes.find? (fun p => ends_with s p.1 && decide (utf8_len s > p.2 + 1)) with
      | some p => popN p.2 s
      | none => s :=
  stem_table_find s hL her

/-- The theorem of C4 at "добрыми": the entry "ыми" (strip 3) is the first that
applies and gives "добр", although the later entry "и" (strip 1) matches too;
and at "вокзал", where no entry applies. -/
theorem stem_first_matching_rule_witness :
    (3 < utf8_len [0xD0, 0xB4, 0xD0, 0xBE, 0xD0, 0xB1, 0xD1, 0x80, 0xD1, 0x8B, 0xD0, 0xBC,
        0xD0, 0xB8] ∧
      ends_with [0xD0, 0xB4, 0xD0, 0xBE, 0xD0, 0xB1, 0xD1, 0x80, 0xD1, 0x8B, 0xD0, 0xBC,
        0xD0, 0xB8] (ru_e ++ ru_r) = false ∧
      stem [0xD0, 0xB4, 0xD0, 0xBE, 0xD0, 0xB1, 0xD1, 0x80, 0xD1, 0x8B, 0xD0, 0xBC, 0xD0, 0xB8]
        = [0xD0, 0xB4, 0xD0, 0xBE, 0xD0, 0xB1, 0xD1, 0x80]) ∧
    (3 < utf8_len [0xD0, 0xB2, 0xD0, 0xBE, 0xD0, 0xBA, 0xD0, 0xB7, 0xD0, 0xB0, 0xD0, 0xBB] ∧
      ends_with [0xD0, 0xB2, 0xD0, 0xBE, 0xD0, 0xBA, 0xD0, 0xB7, 0xD0, 0xB0, 0xD0, 0xBB]
        (ru_e ++ ru_r) = false ∧
      stem [0xD0, 0xB2, 0xD0, 0xBE, 0xD0, 0xBA, 0xD0, 0xB7, 0xD0, 0xB0, 0xD0, 0xBB]
        = [0xD0, 0xB2, 0xD0, 0xBE, 0xD0, 0xBA, 0xD0, 0xB7, 0xD0, 0xB0, 0xD0, 0xBB]) :=
  ⟨⟨by decide, by decide,
    (stem_first_matching_rule
      [0xD0, 0xB4, 0xD0, 0xBE, 0xD0, 0xB1, 0xD1, 0x80, 0xD1, 0x8B, 0xD0, 0xBC, 0xD0, 0xB8]
      (by decide) (by decide)).trans (by decide)⟩,
   ⟨by decide, by decide,
    (stem_first_matching_rule
      [0xD0, 0xB2, 0xD0, 0xBE, 0xD0, 0xBA, 0xD0, 0xB7, 0xD0, 0xB0, 0xD0, 0xBB]
      (by decide) (by decide)).trans (by decide)⟩⟩

/-- C5: the short-word guard: a token of at most 3 characters (the empty token
included, whatever its ending) is returned unchanged by `stem`. -/
theorem stem_short_word (s : Bytes) (h : utf8_len s ≤ 3) : stem s = s := by
  unfold stem
  dsimp only
  rw [if_pos h]

/-- The theorem of C5 at "эти", at the three-letter "жер" ending in "ер", at "я"
(itself a table suffix) and at the empty token. -/
theorem stem_short_word_witness :
    (utf8_len [0xD1, 0x8D, 0xD1, 0x82, 0xD0, 0xB8] ≤ 3 ∧
      stem [0xD1, 0x8D, 0xD1, 0x82, 0xD0, 0xB8] = [0xD1, 0x8D, 0xD1, 0x82, 0xD0, 0xB8]) ∧
    (utf8_len [0xD0, 0xB6, 0xD0, 0xB5, 0xD1, 0x80] ≤ 3 ∧
      stem [0xD0, 0xB6, 0xD0, 0xB5, 0xD1, 0x80] = [0xD0, 0xB6, 0xD0, 0xB5, 0xD1, 0x80]) ∧
    (utf8_len [0xD1, 0x8F] ≤ 3 ∧ stem [0xD1, 0x8F] = [0xD1, 0x8F]) ∧
    (utf8_len [] ≤ 3 ∧ stem [] = []) :=
  ⟨⟨by decide, stem_short_word _ (by decide)⟩, ⟨by decide, stem_short_word _ (by decide)⟩,
    ⟨by decide, stem_short_word _ (by decide)⟩, ⟨by decide, stem_short_word _ (by decide)⟩⟩

/-- C7: a token of more than 3 characters that ends with the bytes of "ер",
`s = x ++ "ер"`, is stemmed to `x ++ "р"`: the two calls of `pop_utf8` remove
exactly the last two characters and "р" is appended, whatever the bytes of `x`
and whatever the suffix table would match. -/
theorem stem_er (x : Bytes) (hL : 3 < utf8_len (x ++ (ru_e ++ ru_r))) :
    pop_utf8 (pop_utf8 (x ++ (ru_e ++ ru_r))) = x ∧
      stem (x ++ (ru_e ++ ru_r)) = x ++ ru_r := by
  have hp : pop_utf8 (pop_utf8 (x ++ (ru_e ++ ru_r))) = x := by
    have h1 : x ++ (ru_e ++ ru_r) = (x ++ [0xD0, 0xB5]) ++ [0xD1, 0x80] := by
      simp [ru_e, ru_r]
    rw [h1, pop_utf8_pair _ _ _ (by decide) (by decide),
      pop_utf8_pair _ _ _ (by decide) (by decide)]
  refine ⟨hp, ?_⟩
  unfold stem
  dsimp only
  rw [if_neg (by omega), ends_with_append, Bool.true_and, if_pos (by simpa using hL), hp]

/-- The theorem of C7 at "ядер" (giving "ядр") and at "вёдер" (giving "вёдр"). -/
theorem stem_er_witness :
    (3 < utf8_len [0xD1, 0x8F, 0xD0, 0xB4, 0xD0, 0xB5, 0xD1, 0x80] ∧
      stem [0xD1, 0x8F, 0xD0, 0xB4, 0xD0, 0xB5, 0xD1, 0x80]
        = [0xD1, 0x8F, 0xD0, 0xB4, 0xD1, 0x80]) ∧
    (3 < utf8_len [0xD0, 0xB2, 0xD1, 0x91, 0xD0, 0xB4, 0xD0, 0xB5, 0xD1, 0x80] ∧
      stem [0xD0, 0xB2, 0xD1, 0x91, 0xD0, 0xB4, 0xD0, 0xB5, 0xD1, 0x80]
        = [0xD0, 0xB2, 0xD1, 0x91, 0xD0, 0xB4, 0xD1, 0x80]) :=
  ⟨⟨by decide, (stem_er [0xD1, 0x8F, 0xD0, 0xB4] (by decide)).2⟩,
   ⟨by decide, (stem_er [0xD0, 0xB2, 0xD1, 0x91, 0xD0, 0xB4] (by decide)).2⟩⟩

/-! ## `utf8_len` as a list recursion, and its behaviour on well-formed strings -/

theorem lenList_nil : lenList [] = 0 := by
  rw [lenList]

theorem lenList_cons (c : Nat) (rest : Bytes) :
    lenList (c :: rest) = 1 + lenList (rest.drop (lenStep c - 1)) := by
  rw [lenList]

theorem lenStep_pos (c : Nat) : 1 ≤ lenStep c := by
  unfold lenStep; split_ifs <;> omega

theorem utf8LenLoop_eq (fuel : Nat) : ∀ (s : Bytes) (i n : Nat), s.length - i ≤ fuel →
    utf8LenLoop fuel s i n = n + lenList (s.drop i) := by
  induction fuel with
  | zero =>
    intro s i n hf
    rw [List.drop_of_length_le (by omega), lenList_nil]
    rfl
  | succ m ih =>
    intro s i n hf
    unfold utf8LenLoop
    by_cases h : i < s.length
    · rw [dif_pos h]
      have hp := lenStep_pos s[i]
      rw [ih _ _ _ (by omega), List.drop_eq_getElem_cons h, lenList_cons, List.drop_drop]
      have e : i + lenStep s[i] = i + 1 + (lenStep s[i] - 1) := by omega
      rw [e]
      omega
    · rw [dif_neg h, List.drop_of_length_le (by omega), lenList_nil]
      rfl

/-- The fuel given to the loop of `utf8_len` is never exhausted: any amount of at
least `s.length - i` gives the same result. -/
theorem utf8LenLoop_fuel (f1 f2 : Nat) (s : Bytes) (i n : Nat) (h1 : s.length - i ≤ f1)
    (h2 : s.length - i ≤ f2) : utf8LenLoop f1 s i n = utf8LenLoop f2 s i n := by
  rw [utf8LenLoop_eq f1 s i n h1, utf8LenLoop_eq f2 s i n h2]

theorem utf8_len_eq_lenList (s : Bytes) : utf8_len s = lenList s := by
  unfold utf8_len
  rw [utf8LenLoop_eq _ _ _ _ (by omega)]
  simp

theorem lenStep_ascii (b : Nat) (h : b < 0x80) : lenStep b = 1 := by
  unfold lenStep; rw [if_pos h]

theorem lenStep_two (b : Nat) (h : 0xC2 ≤ b ∧ b ≤ 0xDF) : lenStep b = 2 := by
  obtain ⟨h1, h2⟩ := h
  interval_cases b <;> rfl

theorem lenStep_three (b : Nat) (h : 0xE0 ≤ b ∧ b ≤ 0xEF) : lenStep b = 3 := by
  obtain ⟨h1, h2⟩ := h
  interval_cases b <;> rfl

theorem lenStep_four (b : Nat) (h : 0xF0 ≤ b ∧ b ≤ 0xF4) : lenStep b = 4 := by
  obtain ⟨h1, h2⟩ := h
  interval_cases b <;> rfl

/-- If `x ++ y` starts with the continuation bytes `t` and `y` does not start with
a continuation byte, then `t` lies inside `x`. -/
theorem cont_run_split (t : Bytes) : ∀ (x y rest : Bytes),
    x ++ y = t ++ rest → (∀ b ∈ t, isCont b = true) →
    (∀ b r, y = b :: r → isCont b = false) →
    ∃ x2, x = t ++ x2 ∧ x2 ++ y = rest := by
  induction t with
  | nil => intro x y rest h _ _; exact ⟨x, rfl, by simpa using h⟩
  | cons c t ih =>
    intro x y rest h hc hy
    cases x with
    | nil =>
      exfalso
      simp only [List.nil_append, List.cons_append] at h
      have h1 := hy c (t ++ rest) h
      rw [hc c (List.mem_cons_self _ _)] at h1
      exact absurd h1 (by decide)
    | cons a x1 =>
      simp only [List.cons_append, List.cons.injEq] at h
      obtain ⟨rfl, h2⟩ := h
      obtain ⟨x2, hx, hr⟩ := ih x1 y rest h2
        (fun b hb => hc b (List.mem_cons_of_mem _ hb)) hy
      exact ⟨x2, by rw [hx, List.cons_append], hr⟩

theorem lenList_char (c : Nat) (t r : Bytes) (h : t.length = lenStep c - 1) :
    lenList (c :: (t ++ r)) = 1 + lenList r := by
  rw [lenList_cons, ← h]
  simp

/-- On a well-formed string the scan of `utf8_len` is synchronised with every
character boundary: the count of a concatenation at a boundary is the sum of the
counts. -/
theorem lenList_append_aux (n : Nat) : ∀ (x y : Bytes) (cps : List Nat), x.length ≤ n →
    decode (x ++ y) = some cps → (∀ b r, y = b :: r → isCont b = false) →
    lenList (x ++ y) = lenList x + lenList y := by
  induction n with
  | zero =>
    intro x y cps hx _ _
    have : x = [] := List.eq_nil_of_length_eq_zero (by omega)
    subst this
    simp [lenList_nil]
  | succ n ih =>
    intro x y cps hx hd hy
    cases x with
    | nil => simp [lenList_nil]
    | cons a x1 =>
      have hx1 : x1.length ≤ n := by simpa using hx
      rcases decode_cases _ _ hd with ⟨h0, _⟩ | ⟨b, rest, t, hs, hb, ht, _⟩ |
        ⟨b, b1, rest, t, hs, hb, hc, ht, _⟩ | ⟨b, b1, b2, rest, t, hs, hb, hc, ht, _⟩ |
        ⟨b, b1, b2, b3, rest, t, hs, hb, hc, ht, _⟩
      · simp at h0
      · simp only [List.cons_append, List.cons.injEq] at hs
        obtain ⟨rfl, hs2⟩ := hs
        have e1 := lenList_char a [] (x1 ++ y) (by rw [lenStep_ascii a hb]; rfl)
        have e2 := lenList_char a [] x1 (by rw [lenStep_ascii a hb]; rfl)
        simp only [List.nil_append] at e1 e2
        rw [List.cons_append, e1, e2, ih x1 y t hx1 (by rw [hs2]; exact ht) hy]
        omega
      · simp only [List.cons_append, List.cons.injEq] at hs
        obtain ⟨rfl, hs2⟩ := hs
        obtain ⟨x2, rfl, hr⟩ := cont_run_split [b1] x1 y rest (by simpa using hs2)
          (by simpa using hc) hy
        have e1 := lenList_char a [b1] (x2 ++ y) (by rw [lenStep_two a hb]; rfl)
        have e2 := lenList_char a [b1] x2 (by rw [lenStep_two a hb]; rfl)
        simp only [List.cons_append, List.nil_append, List.append_assoc] at e1 e2 ⊢
        rw [e1, e2, ih x2 y t (by simp at hx1; omega) (by rw [hr]; exact ht) hy]
        omega
      · simp only [List.cons_append, List.cons.injEq] at hs
        obtain ⟨rfl, hs2⟩ := hs
        simp only [Bool.and_eq_true] at hc
        obtain ⟨x2, rfl, hr⟩ := cont_run_split [b1, b2] x1 y rest (by simpa using hs2)
          (by
            intro c hcm
            simp only [List.mem_cons, List.mem_singleton, List.not_mem_nil, or_false] at hcm
            rcases hcm with rfl | rfl
            · exact hc.1.1.1
            · exact hc.1.1.2) hy
        have e1 := lenList_char a [b1, b2] (x2 ++ y) (by rw [lenStep_three a hb]; rfl)
        have e2 := lenList_char a [b1, b2] x2 (by rw [lenStep_three a hb]; rfl)
        simp only [List.cons_append, List.nil_append, List.append_assoc] at e1 e2 ⊢
        rw [e1, e2, ih x2 y t (by simp at hx1; omega) (by rw [hr]; exact ht) hy]
        omega
      · simp only [List.cons_append, List.cons.injEq] at hs
        obtain ⟨rfl, hs2⟩ := hs
        simp only [Bool.and_eq_true] at hc
        obtain ⟨x2, rfl, hr⟩ := cont_run_split [b1, b2, b3] x1 y rest (by simpa using hs2)
          (by
            intro c hcm
            simp only [List.mem_cons, List.mem_singleton, List.not_mem_nil, or_false] at hcm
            rcases hcm with rfl | rfl | rfl
            · exact hc.1.1.1.1
            · exact hc.1.1.1.2
            · exact hc.1.1.2) hy
        have e1 := lenList_char a [b1, b2, b3] (x2 ++ y) (by rw [lenStep_four a hb]; rfl)
        have e2 := lenList_char a [b1, b2, b3] x2 (by rw [lenStep_four a hb]; rfl)
        simp only [List.cons_append, List.nil_append, List.append_assoc] at e1 e2 ⊢
        rw [e1, e2, ih x2 y t (by simp at hx1; omega) (by rw [hr]; exact ht) hy]
        omega

/-! ## Stripping a table suffix -/

theorem popN_succ_right (m : Nat) : ∀ s : Bytes, popN (m + 1) s = pop_utf8 (popN m s) := by
  induction m with
  | zero => intro s; rfl
  | succ m ih =>
    intro s
    rw [popN, ih (pop_utf8 s)]
    rfl

/-- Popping as many characters as a string of two-byte characters has removes
exactly that string, whatever the bytes before it. -/
theorem popN_pairs : ∀ (suf x : Bytes), leadContPairs suf = true →
    popN (suf.length / 2) (x ++ suf) = x
  | [], x, _ => by simp [popN]
  | [_], _, h => by simp [leadContPairs] at h
  | a :: b :: rest, x, h => by
    simp only [leadContPairs, Bool.and_eq_true, decide_eq_true_eq] at h
    have ih := popN_pairs rest (x ++ [a, b]) h.2
    have e : (a :: b :: rest).length / 2 = rest.length / 2 + 1 := by
      simp only [List.length_cons]; omega
    have e2 : x ++ a :: b :: rest = (x ++ [a, b]) ++ rest := by simp
    rw [e, popN_succ_right, e2, ih, pop_utf8_pair _ _ _ h.1.1 h.1.2]

/-- Every suffix of the table consists of `k` two-byte characters and starts with
a lead byte. -/
theorem suffixes_shape : ∀ p ∈ suffixes,
    leadContPairs p.1 = true ∧ p.1.length / 2 = p.2 ∧ utf8_len p.1 = p.2 ∧
      p.1.head?.map isCont = some false := by
  decide

/-- C6: when `stem` applies the table rule `(suf, k)` to a well-formed UTF-8 token
(more than 3 characters, no "ер" ending, `(suf, k)` the first entry that matches
and passes the length test), the stem has exactly `k` characters fewer than the
token and at least 2 characters. -/
theorem stem_reduction (s suf : Bytes) (k : Nat) (hwf : wellFormed s = true)
    (hL : 3 < utf8_len s) (her : ends_with s (ru_e ++ ru_r) = false)
    (hrule : suffixes.find? (fun p => ends_with s p.1 && decide (utf8_len s > p.2 + 1))
      = some (suf, k)) :
    stem s = popN k s ∧ utf8_len (stem s) = utf8_len s - k ∧ 2 ≤ utf8_len (stem s) := by
  have hst : stem s = popN k s := by
    rw [stem_table_find s hL her, hrule]
  have hmem : (suf, k) ∈ suffixes := List.mem_of_find?_eq_some hrule
  have hpred := List.find?_some hrule
  simp only [Bool.and_eq_true, decide_eq_true_eq] at hpred
  obtain ⟨hends, hgt⟩ := hpred
  obtain ⟨hpairs, hk, hlen, hhead⟩ := suffixes_shape (suf, k) hmem
  simp only at hpairs hk hlen hhead
  obtain ⟨x, rfl⟩ := ends_with_split s suf hends
  have hpop : popN k (x ++ suf) = x := by
    rw [← hk]; exact popN_pairs suf x hpairs
  obtain ⟨cps, hcps⟩ := Option.isSome_iff_exists.mp hwf
  have hsync := lenList_append_aux x.length x suf cps (Nat.le_refl _) hcps (by
    intro b r hbr
    rw [hbr] at hhead
    simpa using hhead)
  rw [← utf8_len_eq_lenList, ← utf8_len_eq_lenList, ← utf8_len_eq_lenList, hlen] at hsync
  rw [hst, hpop]
  refine ⟨rfl, ?_, ?_⟩ <;> omega

/-- The theorem of C6 at "добрыми", where the rule ("ыми", 3) is the one applied:
7 characters become 4. -/
theorem stem_reduction_witness :
    wellFormed [0xD0, 0xB4, 0xD0, 0xBE, 0xD0, 0xB1, 0xD1, 0x80, 0xD1, 0x8B, 0xD0, 0xBC,
      0xD0, 0xB8] = true ∧
    utf8_len [0xD0, 0xB4, 0xD0, 0xBE, 0xD0, 0xB1, 0xD1, 0x80, 0xD1, 0x8B, 0xD0, 0xBC,
      0xD0, 0xB8] = 7 ∧
    ends_with [0xD0, 0xB4, 0xD0, 0xBE, 0xD0, 0xB1, 0xD1, 0x80, 0xD1, 0x8B, 0xD0, 0xBC,
      0xD0, 0xB8] (ru_e ++ ru_r) = false ∧
    suffixes.find? (fun p =>
      ends_with [0xD0, 0xB4, 0xD0, 0xBE, 0xD0, 0xB1, 0xD1, 0x80, 0xD1, 0x8B, 0xD0, 0xBC,
        0xD0, 0xB8] p.1 &&
      decide (utf8_len [0xD0, 0xB4, 0xD0, 0xBE, 0xD0, 0xB1, 0xD1, 0x80, 0xD1, 0x8B, 0xD0, 0xBC,
        0xD0, 0xB8] > p.2 + 1)) = some (ru_y ++ ru_m ++ ru_i, 3) ∧
    utf8_len (stem [0xD0, 0xB4, 0xD0, 0xBE, 0xD0, 0xB1, 0xD1, 0x80, 0xD1, 0x8B, 0xD0, 0xBC,
      0xD0, 0xB8]) = 7 - 3 ∧
    2 ≤ utf8_len (stem [0xD0, 0xB4, 0xD0, 0xBE, 0xD0, 0xB1, 0xD1, 0x80, 0xD1, 0x8B, 0xD0, 0xBC,
      0xD0, 0xB8]) :=
  ⟨by decide, by decide, by decide, by decide,
    (stem_reduction
      [0xD0, 0xB4, 0xD0, 0xBE, 0xD0, 0xB1, 0xD1, 0x80, 0xD1, 0x8B, 0xD0, 0xBC, 0xD0, 0xB8]
      (ru_y ++ ru_m ++ ru_i) 3 (by decide) (by decide) (by decide) (by decide)).2⟩

/-! ## The counting pass -/

theorem firstOccurrences_mem (l : List Bytes) (k : Bytes) :
    k ∈ firstOccurrences l ↔ k ∈ l := by
  induction l with
  | nil => simp [firstOccurrences]
  | cons a l ih =>
    simp only [firstOccurrences, List.mem_cons, List.mem_filter, ih, decide_eq_true_eq]
    constructor
    · rintro (h | ⟨h, _⟩)
      · exact Or.inl h
      · exact Or.inr h
    · intro h
      by_cases e : k = a
      · exact Or.inl e
      · rcases h with h | h
        · exact Or.inl h
        · exact Or.inr ⟨h, e⟩

theorem firstOccurrences_nodup (l : List Bytes) : (firstOccurrences l).Nodup := by
  induction l with
  | nil => simp [firstOccurrences]
  | cons a l ih =>
    simp only [firstOccurrences, List.nodup_cons, List.mem_filter, decide_eq_true_eq]
    exact ⟨fun h => h.2 rfl, ih.filter _⟩

theorem firstOccurrences_snoc (l : List Bytes) (a : Bytes) :
    firstOccurrences (l ++ [a]) =
      if a ∈ l then firstOccurrences l else firstOccurrences l ++ [a] := by
  induction l with
  | nil => simp [firstOccurrences]
  | cons b l ih =>
    have e : firstOccurrences (b :: l ++ [a]) =
        b :: (firstOccurrences (l ++ [a])).filter (fun c => decide (c ≠ b)) := rfl
    have e2 : firstOccurrences (b :: l) =
        b :: (firstOccurrences l).filter (fun c => decide (c ≠ b)) := rfl
    rw [e, e2, ih]
    by_cases hab : a = b
    · subst hab
      by_cases hal : a ∈ l
      · simp [hal]
      · simp [hal, List.filter_append]
    · by_cases hal : a ∈ l
      · simp [hal, hab]
      · have hba : ¬ b = a := fun e => hab e.symm
        simp [hal, hab, hba, List.filter_append]

theorem indexOf_cons_bytes (a k : Bytes) (U : List Bytes) :
    (a :: U).indexOf k = if a = k then 0 else U.indexOf k + 1 := by
  rw [List.indexOf_cons]
  by_cases h : a = k
  · simp [h]
  · have hb : (a == k) = false := beq_eq_false_iff_ne.mpr h
    rw [hb, if_neg h]
    rfl

theorem indexOf_not_mem (k : Bytes) (U : List Bytes) (h : k ∉ U) :
    U.indexOf k = U.length := by
  induction U with
  | nil => rfl
  | cons a U ih =>
    have h1 : ¬ a = k := fun e => h (e ▸ List.mem_cons_self _ _)
    have h2 : k ∉ U := fun e => h (List.mem_cons_of_mem _ e)
    rw [indexOf_cons_bytes, if_neg h1, ih h2, List.length_cons]

theorem indexOf_mem_lt (k : Bytes) (U : List Bytes) (h : k ∈ U) :
    U.indexOf k < U.length := by
  induction U with
  | nil => simp at h
  | cons a U ih =>
    rw [indexOf_cons_bytes]
    by_cases h1 : a = k
    · simp [h1]
    · have h2 : k ∈ U := by
        rcases List.mem_cons.mp h with e | e
        · exact absurd e.symm h1
        · exact e
      rw [if_neg h1, List.length_cons]
      exact Nat.succ_lt_succ (ih h2)

theorem wrapInt32_of_range (x : Int) (h0 : -2147483648 ≤ x) (h1 : x ≤ 2147483647) :
    wrapInt32 x = x := by
  unfold wrapInt32
  omega

theorem wrapInt32_succ (x : Int) : wrapInt32 (wrapInt32 x + 1) = wrapInt32 (x + 1) := by
  unfold wrapInt32
  omega

/-- Incrementing the counter at the position where `std::find` finds `k`. -/
theorem set_indexOf_map (k : Bytes) (f g : Bytes → Int) (hk : g k = wrapInt32 (f k + 1))
    (hne : ∀ x, x ≠ k → g x = f x) (U : List Bytes) (hnd : U.Nodup) (hm : k ∈ U) :
    (U.map f).set (U.indexOf k) (wrapInt32 ((U.map f).getD (U.indexOf k) 0 + 1)) =
      U.map g := by
  induction U with
  | nil => simp at hm
  | cons a U ih =>
    rw [indexOf_cons_bytes]
    have hnd2 := List.nodup_cons.mp hnd
    by_cases h1 : a = k
    · subst h1
      rw [if_pos rfl]
      simp only [List.map_cons, List.set_cons_zero, List.getD_cons_zero, hk, List.cons.injEq,
        true_and]
      apply List.map_congr_left
      intro x hx
      exact (hne x (fun e => hnd2.1 (e ▸ hx))).symm
    · have h2 : k ∈ U := by
        rcases List.mem_cons.mp hm with e | e
        · exact absurd e.symm h1
        · exact e
      rw [if_neg h1]
      simp only [List.map_cons, List.set_cons_succ, List.getD_cons_succ, List.cons.injEq]
      exact ⟨(hne a h1).symm, ih hnd2.2 h2⟩

theorem countWords_snoc (ws : List Bytes) (w : Bytes) :
    countWords (ws ++ [w]) = countStep (countWords ws) w := by
  simp [countWords, List.foldl_append]

/-- The result of the counting pass: the stems in the order of their first
occurrence, each with the `int` value of its number of occurrences. -/
theorem countWords_eq (ws : List Bytes) :
    countWords ws = (firstOccurrences (ws.map stem),
      (firstOccurrences (ws.map stem)).map
        (fun k => wrapInt32 (((ws.map stem).count k : Nat) : Int))) := by
  induction ws using List.reverseRecOn with
  | nil => rfl
  | append_singleton ws w ih =>
    rw [countWords_snoc, ih]
    simp only [List.map_append, List.map_cons, List.map_nil]
    generalize hst : ws.map stem = stems
    have hmemU := firstOccurrences_mem stems
    have hnd := firstOccurrences_nodup stems
    have hsn := firstOccurrences_snoc stems (stem w)
    generalize hU : firstOccurrences stems = U at hmemU hnd hsn
    unfold countStep
    dsimp only
    by_cases hm : stem w ∈ stems
    · have hmU : stem w ∈ U := (hmemU _).mpr hm
      have hlt := indexOf_mem_lt _ _ hmU
      rw [if_neg (by omega), hsn, if_pos hm]
      have e := set_indexOf_map (stem w)
        (fun k => wrapInt32 ((stems.count k : Nat) : Int))
        (fun k => wrapInt32 (((stems ++ [stem w]).count k : Nat) : Int))
        (by
          have hc : (stems ++ [stem w]).count (stem w) = stems.count (stem w) + 1 := by
            simp [List.count_append]
          show wrapInt32 (((stems ++ [stem w]).count (stem w) : Nat) : Int) =
            wrapInt32 (wrapInt32 ((stems.count (stem w) : Nat) : Int) + 1)
          rw [wrapInt32_succ, hc, Nat.cast_add, Nat.cast_one])
        (by
          intro x hx
          have hc : (stems ++ [stem w]).count x = stems.count x := by
            simp [List.count_append, List.count_cons, hx]
          show wrapInt32 (((stems ++ [stem w]).count x : Nat) : Int) =
            wrapInt32 ((stems.count x : Nat) : Int)
          rw [hc])
        U hnd hmU
      rw [e]
    · have hmU : stem w ∉ U := fun h => hm ((hmemU _).mp h)
      rw [if_pos (indexOf_not_mem _ _ hmU), hsn, if_neg hm]
      have e1 : U.map (fun k => wrapInt32 ((stems.count k : Nat) : Int)) =
          U.map (fun k => wrapInt32 (((stems ++ [stem w]).count k : Nat) : Int)) := by
        apply List.map_congr_left
        intro k hk
        have hk2 : k ≠ stem w := fun e => hmU (e ▸ hk)
        have hc : (stems ++ [stem w]).count k = stems.count k := by
          simp [List.count_append, List.count_cons, hk2]
        rw [hc]
      have hc2 : (stems ++ [stem w]).count (stem w) = 1 := by
        simp [List.count_append, List.count_eq_zero_of_not_mem hm]
      have e2 : wrapInt32 ((1 : Nat) : Int) = 1 := by
        unfold wrapInt32
        omega
      rw [List.map_append, List.map_cons, List.map_nil, hc2, e2, e1]

theorem count_map_stem (words : List Bytes) (k : Bytes) :
    (words.map stem).count k = words.countP (fun w => decide (stem w = k)) := by
  rw [List.count, List.countP_map]
  congr 1
  funext w
  by_cases h : stem w = k
  · simp [h]
  · have hb : (stem w == k) = false := beq_eq_false_iff_ne.mpr h
    simp [h, hb]

theorem getD_map_of_lt (f : Bytes → Int) (U : List Bytes) (i : Nat) (hi : i < U.length) :
    (U.map f).getD i 0 = f U[i] := by
  simp [List.getD_eq_getElem?_getD, hi]

theorem getD_of_lt (U : List Bytes) (i : Nat) (hi : i < U.length) :
    U.getD i [] = U[i] := by
  simp [List.getD_eq_getElem?_getD, hi]

/-- C11, as amended: after the counting pass the keys `uniq` are pairwise distinct,
`uniq` and `counts` have the same length and the keys are exactly the stems of the
words, for every word list; and at every index whose key is the stem of at most
`2^31 - 1` words (the largest value of the `int` counter), the counter is at least
1 and equals the number of words whose stem is that key. -/
theorem frequency_table_invariant (words : List Bytes) :
    (countWords words).1.Nodup ∧
    (countWords words).1.length = (countWords words).2.length ∧
    (∀ k, k ∈ (countWords words).1 ↔ ∃ w ∈ words, stem w = k) ∧
    ∀ i, i < (countWords words).1.length →
      words.countP (fun w => decide (stem w = (countWords words).1.getD i [])) ≤ 2147483647 →
      1 ≤ (countWords words).2.getD i 0 ∧
      (countWords words).2.getD i 0 =
        ((words.countP (fun w => decide (stem w = (countWords words).1.getD i [])) : Nat) : Int)
    := by
  rw [countWords_eq]
  dsimp only
  refine ⟨firstOccurrences_nodup _, by simp, ?_, ?_⟩
  · intro k
    rw [firstOccurrences_mem]
    simp
  · intro i hi
    rw [getD_map_of_lt _ _ i hi, getD_of_lt _ i hi, ← count_map_stem]
    intro hmax
    have hmem : (firstOccurrences (words.map stem))[i] ∈ words.map stem :=
      (firstOccurrences_mem _ _).mp (List.getElem_mem _)
    have hpos : 0 < (words.map stem).count (firstOccurrences (words.map stem))[i] :=
      List.count_pos_iff.mpr hmem
    rw [wrapInt32_of_range _ (by omega) (by omega)]
    exact ⟨by omega, rfl⟩

/-- The theorem of C11 at the words "добрым", "людям", "добро": at index 0 the
key is "добр", it is the stem of 2 words, and its counter is 2. -/
theorem frequency_table_invariant_witness :
    0 < (countWords
      [[0xD0, 0xB4, 0xD0, 0xBE, 0xD0, 0xB1, 0xD1, 0x80, 0xD1, 0x8B, 0xD0, 0xBC],
       [0xD0, 0xBB, 0xD1, 0x8E, 0xD0, 0xB4, 0xD1, 0x8F, 0xD0, 0xBC],
       [0xD0, 0xB4, 0xD0, 0xBE, 0xD0, 0xB1, 0xD1, 0x80, 0xD0, 0xBE]]).1.length ∧
    [[0xD0, 0xB4, 0xD0, 0xBE, 0xD0, 0xB1, 0xD1, 0x80, 0xD1, 0x8B, 0xD0, 0xBC],
       [0xD0, 0xBB, 0xD1, 0x8E, 0xD0, 0xB4, 0xD1, 0x8F, 0xD0, 0xBC],
       [0xD0, 0xB4, 0xD0, 0xBE, 0xD0, 0xB1, 0xD1, 0x80, 0xD0, 0xBE]].countP
      (fun w => decide (stem w = (countWords
        [[0xD0, 0xB4, 0xD0, 0xBE, 0xD0, 0xB1, 0xD1, 0x80, 0xD1, 0x8B, 0xD0, 0xBC],
         [0xD0, 0xBB, 0xD1, 0x8E, 0xD0, 0xB4, 0xD1, 0x8F, 0xD0, 0xBC],
         [0xD0, 0xB4, 0xD0, 0xBE, 0xD0, 0xB1, 0xD1, 0x80, 0xD0, 0xBE]]).1.getD 0 []))
      ≤ 2147483647 ∧
    1 ≤ (countWords
      [[0xD0, 0xB4, 0xD0, 0xBE, 0xD0, 0xB1, 0xD1, 0x80, 0xD1, 0x8B, 0xD0, 0xBC],
       [0xD0, 0xBB, 0xD1, 0x8E, 0xD0, 0xB4, 0xD1, 0x8F, 0xD0, 0xBC],
       [0xD0, 0xB4, 0xD0, 0xBE, 0xD0, 0xB1, 0xD1, 0x80, 0xD0, 0xBE]]).2.getD 0 0 ∧
    (countWords
      [[0xD0, 0xB4, 0xD0, 0xBE, 0xD0, 0xB1, 0xD1, 0x80, 0xD1, 0x8B, 0xD0, 0xBC],
       [0xD0, 0xBB, 0xD1, 0x8E, 0xD0, 0xB4, 0xD1, 0x8F, 0xD0, 0xBC],
       [0xD0, 0xB4, 0xD0, 0xBE, 0xD0, 0xB1, 0xD1, 0x80, 0xD0, 0xBE]]).2.getD 0 0 = 2 :=
  ⟨by decide, by decide,
    ((frequency_table_invariant
      [[0xD0, 0xB4, 0xD0, 0xBE, 0xD0, 0xB1, 0xD1, 0x80, 0xD1, 0x8B, 0xD0, 0xBC],
       [0xD0, 0xBB, 0xD1, 0x8E, 0xD0, 0xB4, 0xD1, 0x8F, 0xD0, 0xBC],
       [0xD0, 0xB4, 0xD0, 0xBE, 0xD0, 0xB1, 0xD1, 0x80, 0xD0, 0xBE]]).2.2.2 0 (by decide)
        (by decide)).1,
    ((frequency_table_invariant
      [[0xD0, 0xB4, 0xD0, 0xBE, 0xD0, 0xB1, 0xD1, 0x80, 0xD1, 0x8B, 0xD0, 0xBC],
       [0xD0, 0xBB, 0xD1, 0x8E, 0xD0, 0xB4, 0xD1, 0x8F, 0xD0, 0xBC],
       [0xD0, 0xB4, 0xD0, 0xBE, 0xD0, 0xB1, 0xD1, 0x80, 0xD0, 0xBE]]).2.2.2 0 (by decide)
        (by decide)).2.trans (by decide)⟩

theorem firstOccurrences_replicate (n : Nat) (a : Bytes) (hn : 0 < n) :
    firstOccurrences (List.replicate n a) = [a] := by
  obtain ⟨m, rfl⟩ : ∃ m, n = m + 1 := ⟨n - 1, by omega⟩
  rw [List.replicate_succ]
  have e : firstOccurrences (a :: List.replicate m a) =
      a :: (firstOccurrences (List.replicate m a)).filter (fun c => decide (c ≠ a)) := rfl
  rw [e]
  congr 1
  apply List.filter_eq_nil_iff.mpr
  intro c hc
  have h2 := (firstOccurrences_mem _ _).mp hc
  have h3 := List.eq_of_mem_replicate h2
  simp [h3]

theorem stem_letter_a : stem [0x61] = [0x61] := by
  decide

/-- The counting pass over `n` copies of the one-letter word "a". -/
theorem countWords_replicate_a (n : Nat) (hn : 0 < n) :
    countWords (List.replicate n [0x61]) = ([[0x61]], [wrapInt32 (n : Int)]) ∧
      (List.replicate n ([0x61] : Bytes)).countP (fun w => decide (stem w = [0x61])) = n := by
  have hc : ((List.replicate n ([0x61] : Bytes)).map stem).count [0x61] = n := by
    rw [List.map_replicate, stem_letter_a, List.count_replicate_self]
  refine ⟨?_, by rw [← count_map_stem, hc]⟩
  rw [countWords_eq, List.map_replicate, stem_letter_a, firstOccurrences_replicate n _ hn,
    List.map_cons, List.map_nil, List.count_replicate_self]

/-- The claim C11 as stated fails on `2^31` copies of the word "a": the only key
is "a", it is the stem of `2^31` words, and the `int` counter, incremented past
its largest value `2^31 - 1`, holds `-2^31`, which is neither at least 1 nor the
number of words with that stem. -/
theorem frequency_table_invariant_counterexample :
    (countWords (List.replicate 2147483648 [0x61])).1 = [[0x61]] ∧
    (List.replicate 2147483648 ([0x61] : Bytes)).countP
      (fun w => decide (stem w = [0x61])) = 2147483648 ∧
    (countWords (List.replicate 2147483648 [0x61])).2 = [-2147483648] ∧
    ¬ (1 ≤ (countWords (List.replicate 2147483648 [0x61])).2.getD 0 0) ∧
    (countWords (List.replicate 2147483648 [0x61])).2.getD 0 0 ≠
      (((List.replicate 2147483648 ([0x61] : Bytes)).countP
        (fun w => decide (stem w = [0x61])) : Nat) : Int) := by
  obtain ⟨h1, h2⟩ := countWords_replicate_a 2147483648 (by omega)
  have hw : wrapInt32 ((2147483648 : Nat) : Int) = -2147483648 := by
    unfold wrapInt32
    omega
  rw [h1, h2, hw]
  refine ⟨rfl, rfl, rfl, ?_, ?_⟩
  · simp only [List.getD_cons_zero]
    omega
  · simp only [List.getD_cons_zero]
    omega

/-- C12: the keys of the frequency table are the stems of the words in the order
of their first occurrence (the stem list with later duplicates removed), and a
word list with stems `[s1, s1, s2, s1]`, `s1 ≠ s2`, gives the table
`[(s1, 3), (s2, 1)]`. -/
theorem frequency_first_seen_order (words : List Bytes) :
    (countWords words).1 = firstOccurrences (words.map stem) ∧
    ∀ s1 s2 : Bytes, s1 ≠ s2 → words.map stem = [s1, s1, s2, s1] →
      countWords words = ([s1, s2], [3, 1]) := by
  refine ⟨by rw [countWords_eq], ?_⟩
  intro s1 s2 hne hst
  have h21 : ¬ s2 = s1 := fun e => hne e.symm
  have hF : firstOccurrences [s1, s1, s2, s1] = [s1, s2] := by
    simp [firstOccurrences, hne, h21]
  have c1 : List.count s1 [s1, s1, s2, s1] = 3 := by
    simp [List.count_cons, hne, h21]
  have c2 : List.count s2 [s1, s1, s2, s1] = 1 := by
    simp [List.count_cons, hne, h21]
  have w3 : wrapInt32 ((3 : Nat) : Int) = 3 := by
    unfold wrapInt32
    omega
  have w1 : wrapInt32 ((1 : Nat) : Int) = 1 := by
    unfold wrapInt32
    omega
  rw [countWords_eq, hst, hF]
  simp only [List.map_cons, List.map_nil]
  rw [c1, c2, w3, w1]

/-- The theorem of C12 at the words "добрым", "добро", "людям", "добрым", whose
stems are "добр", "добр", "люд", "добр": the table is [("добр", 3), ("люд", 1)]. -/
theorem frequency_first_seen_order_witness :
    ([0xD0, 0xB4, 0xD0, 0xBE, 0xD0, 0xB1, 0xD1, 0x80] : Bytes) ≠ [0xD0, 0xBB, 0xD1, 0x8E, 0xD0, 0xB4] ∧
    [[0xD0, 0xB4, 0xD0, 0xBE, 0xD0, 0xB1, 0xD1, 0x80, 0xD1, 0x8B, 0xD0, 0xBC],
     [0xD0, 0xB4, 0xD0, 0xBE, 0xD0, 0xB1, 0xD1, 0x80, 0xD0, 0xBE],
     [0xD0, 0xBB, 0xD1, 0x8E, 0xD0, 0xB4, 0xD1, 0x8F, 0xD0, 0xBC],
     [0xD0, 0xB4, 0xD0, 0xBE, 0xD0, 0xB1, 0xD1, 0x80, 0xD1, 0x8B, 0xD0, 0xBC]].map stem =
      [[0xD0, 0xB4, 0xD0, 0xBE, 0xD0, 0xB1, 0xD1, 0x80], [0xD0, 0xB4, 0xD0, 0xBE, 0xD0, 0xB1, 0xD1, 0x80],
       [0xD0, 0xBB, 0xD1, 0x8E, 0xD0, 0xB4], [0xD0, 0xB4, 0xD0, 0xBE, 0xD0, 0xB1, 0xD1, 0x80]] ∧
    countWords
      [[0xD0, 0xB4, 0xD0, 0xBE, 0xD0, 0xB1, 0xD1, 0x80, 0xD1, 0x8B, 0xD0, 0xBC],
       [0xD0, 0xB4, 0xD0, 0xBE, 0xD0, 0xB1, 0xD1, 0x80, 0xD0, 0xBE],
       [0xD0, 0xBB, 0xD1, 0x8E, 0xD0, 0xB4, 0xD1, 0x8F, 0xD0, 0xBC],
       [0xD0, 0xB4, 0xD0, 0xBE, 0xD0, 0xB1, 0xD1, 0x80, 0xD1, 0x8B, 0xD0, 0xBC]] =
      ([[0xD0, 0xB4, 0xD0, 0xBE, 0xD0, 0xB1, 0xD1, 0x80], [0xD0, 0xBB, 0xD1, 0x8E, 0xD0, 0xB4]], [3, 1]) :=
  ⟨by decide, by decide,
    (frequency_first_seen_order
      [[0xD0, 0xB4, 0xD0, 0xBE, 0xD0, 0xB1, 0xD1, 0x80, 0xD1, 0x8B, 0xD0, 0xBC],
       [0xD0, 0xB4, 0xD0, 0xBE, 0xD0, 0xB1, 0xD1, 0x80, 0xD0, 0xBE],
       [0xD0, 0xBB, 0xD1, 0x8E, 0xD0, 0xB4, 0xD1, 0x8F, 0xD0, 0xBC],
       [0xD0, 0xB4, 0xD0, 0xBE, 0xD0, 0xB1, 0xD1, 0x80, 0xD1, 0x8B, 0xD0, 0xBC]]).2
      [0xD0, 0xB4, 0xD0, 0xBE, 0xD0, 0xB1, 0xD1, 0x80] [0xD0, 0xBB, 0xD1, 0x8E, 0xD0, 0xB4]
      (by decide) (by decide)⟩

/-- C13: the tokens "Добрым", "людям", "добро!" give the display sequence
"добрым", "людям", "добро", the stems "добр", "люд", "добр", and the frequency
table `[("добр", 2), ("люд", 1)]`. -/
theorem scenario_dobrym_lyudyam_dobro :
    process_tokens
      [[0xD0, 0x94, 0xD0, 0xBE, 0xD0, 0xB1, 0xD1, 0x80, 0xD1, 0x8B, 0xD0, 0xBC],
       [0xD0, 0xBB, 0xD1, 0x8E, 0xD0, 0xB4, 0xD1, 0x8F, 0xD0, 0xBC],
       [0xD0, 0xB4, 0xD0, 0xBE, 0xD0, 0xB1, 0xD1, 0x80, 0xD0, 0xBE, 0x21]] =
      ([[0xD0, 0xB4, 0xD0, 0xBE, 0xD0, 0xB1, 0xD1, 0x80, 0xD1, 0x8B, 0xD0, 0xBC],
        [0xD0, 0xBB, 0xD1, 0x8E, 0xD0, 0xB4, 0xD1, 0x8F, 0xD0, 0xBC],
        [0xD0, 0xB4, 0xD0, 0xBE, 0xD0, 0xB1, 0xD1, 0x80, 0xD0, 0xBE]],
       ([[0xD0, 0xB4, 0xD0, 0xBE, 0xD0, 0xB1, 0xD1, 0x80], [0xD0, 0xBB, 0xD1, 0x8E, 0xD0, 0xB4]],
        [2, 1])) ∧
    stem [0xD0, 0xB4, 0xD0, 0xBE, 0xD0, 0xB1, 0xD1, 0x80, 0xD1, 0x8B, 0xD0, 0xBC]
      = [0xD0, 0xB4, 0xD0, 0xBE, 0xD0, 0xB1, 0xD1, 0x80] ∧
    stem [0xD0, 0xBB, 0xD1, 0x8E, 0xD0, 0xB4, 0xD1, 0x8F, 0xD0, 0xBC]
      = [0xD0, 0xBB, 0xD1, 0x8E, 0xD0, 0xB4] ∧
    stem [0xD0, 0xB4, 0xD0, 0xBE, 0xD0, 0xB1, 0xD1, 0x80, 0xD0, 0xBE]
      = [0xD0, 0xB4, 0xD0, 0xBE, 0xD0, 0xB1, 0xD1, 0x80] := by
  decide

set_option maxRecDepth 100000 in
theorem topbits_iff_isCont : ∀ b, b < 256 → ((b &&& 0xC0 = 0x80) ↔ isCont b = true) := by
  decide

theorem getElem_char_tail (x conts : Bytes) (lead j : Nat) (hj : j < conts.length)
    (h : x.length + j + 1 < (x ++ lead :: conts).length) :
    (x ++ lead :: conts)[x.length + j + 1] = conts[j] := by
  rw [List.getElem_append_right (by omega)]
  have e : x.length + j + 1 - x.length = j + 1 := by omega
  simp [e]

theorem getElem_char_lead (x conts : Bytes) (lead : Nat)
    (h : x.length < (x ++ lead :: conts).length) :
    (x ++ lead :: conts)[x.length] = lead := by
  rw [List.getElem_append_right (Nat.le_refl _)]
  simp

theorem popScan_char (x conts : Bytes) (lead : Nat) (hl : ¬ (lead &&& 0xC0 = 0x80))
    (hc : ∀ c ∈ conts, c &&& 0xC0 = 0x80) :
    ∀ (j i : Nat) (h : i < (x ++ lead :: conts).length), i = x.length + j →
      popScan (x ++ lead :: conts) i h = x.length := by
  intro j
  induction j with
  | zero =>
    intro i h hi
    have hi2 : i = x.length := hi
    subst hi2
    exact popScan_stop _ _ h (by rw [getElem_char_lead]; exact hl)
  | succ j ih =>
    intro i h hi
    have hi2 : i = x.length + j + 1 := hi
    subst hi2
    have hj : j < conts.length := by simp at h; omega
    rw [popScan_step _ (x.length + j) h (by
      rw [getElem_char_tail x conts lead j hj]
      exact hc _ (List.getElem_mem _))]
    exact ih _ _ rfl

/-- Removing one character from a string that ends with a lead byte followed by
continuation bytes removes exactly these bytes, whatever precedes them. -/
theorem pop_utf8_char (x conts : Bytes) (lead : Nat) (hl : ¬ (lead &&& 0xC0 = 0x80))
    (hc : ∀ c ∈ conts, c &&& 0xC0 = 0x80) : pop_utf8 (x ++ lead :: conts) = x := by
  unfold pop_utf8
  rw [dif_neg (by simp)]
  have e : (x ++ lead :: conts).length - 1 = x.length + conts.length := by simp
  rw [popScan_char x conts lead hl hc conts.length _ _ e]
  simp

theorem notCont_bits (b : Nat) (h : b < 0x80 ∨ (0xC2 ≤ b ∧ b ≤ 0xF4)) :
    ¬ (b &&& 0xC0 = 0x80) := by
  intro e
  have h2 := (topbits_iff_isCont b (by omega)).mp e
  simp only [isCont, Bool.and_eq_true, decide_eq_true_eq] at h2
  omega

theorem cont_bits (b : Nat) (h : isCont b = true) : b &&& 0xC0 = 0x80 := by
  have h2 := h
  simp only [isCont, Bool.and_eq_true, decide_eq_true_eq] at h2
  exact (topbits_iff_isCont b (by omega)).mpr h

theorem countP_lead (b : Nat) (l : Bytes) (h : ¬ (b &&& 0xC0 = 0x80)) :
    (b :: l).countP (fun c => decide (¬ (c &&& 0xC0 = 0x80))) =
      l.countP (fun c => decide (¬ (c &&& 0xC0 = 0x80))) + 1 := by
  rw [List.countP_cons_of_pos]
  simpa using h

theorem countP_cont (b : Nat) (l : Bytes) (h : b &&& 0xC0 = 0x80) :
    (b :: l).countP (fun c => decide (¬ (c &&& 0xC0 = 0x80))) =
      l.countP (fun c => decide (¬ (c &&& 0xC0 = 0x80))) := by
  rw [List.countP_cons_of_neg]
  simpa using h

/-- On a well-formed string `utf8_len` counts the code points, which is also the
number of bytes that are not continuation bytes. -/
theorem decode_count_aux (n : Nat) : ∀ (s : Bytes) (cps : List Nat), s.length ≤ n →
    decode s = some cps →
    lenList s = cps.length ∧
      s.countP (fun c => decide (¬ (c &&& 0xC0 = 0x80))) = cps.length := by
  induction n with
  | zero =>
    intro s cps hs hd
    have : s = [] := List.eq_nil_of_length_eq_zero (by omega)
    subst this
    rw [decode_nil] at hd
    cases hd
    simp [lenList_nil]
  | succ n ih =>
    intro s cps hs hd
    rcases decode_cases s cps hd with ⟨rfl, rfl⟩ | ⟨b, rest, t, rfl, hb, ht, rfl⟩ |
      ⟨b, b1, rest, t, rfl, hb, hc, ht, rfl⟩ | ⟨b, b1, b2, rest, t, rfl, hb, hc, ht, rfl⟩ |
      ⟨b, b1, b2, b3, rest, t, rfl, hb, hc, ht, rfl⟩
    · simp [lenList_nil]
    · obtain ⟨h1, h2⟩ := ih rest t (by simp at hs; omega) ht
      have e := lenList_char b [] rest (by rw [lenStep_ascii b hb]; rfl)
      simp only [List.nil_append] at e
      rw [e, countP_lead b rest (notCont_bits b (Or.inl hb)), h1, h2, List.length_cons]
      omega
    · obtain ⟨h1, h2⟩ := ih rest t (by simp at hs; omega) ht
      have e := lenList_char b [b1] rest (by rw [lenStep_two b hb]; rfl)
      simp only [List.cons_append, List.nil_append] at e
      rw [e, countP_lead b _ (notCont_bits b (Or.inr (by omega))),
        countP_cont b1 _ (cont_bits b1 hc), h1, h2, List.length_cons]
      omega
    · obtain ⟨h1, h2⟩ := ih rest t (by simp at hs; omega) ht
      have e := lenList_char b [b1, b2] rest (by rw [lenStep_three b hb]; rfl)
      simp only [List.cons_append, List.nil_append] at e
      simp only [Bool.and_eq_true] at hc
      rw [e, countP_lead b _ (notCont_bits b (Or.inr (by omega))),
        countP_cont b1 _ (cont_bits b1 hc.1.1.1), countP_cont b2 _ (cont_bits b2 hc.1.1.2),
        h1, h2, List.length_cons]
      omega
    · obtain ⟨h1, h2⟩ := ih rest t (by simp at hs; omega) ht
      have e := lenList_char b [b1, b2, b3] rest (by rw [lenStep_four b hb]; rfl)
      simp only [List.cons_append, List.nil_append] at e
      simp only [Bool.and_eq_true] at hc
      rw [e, countP_lead b _ (notCont_bits b (Or.inr (by omega))),
        countP_cont b1 _ (cont_bits b1 hc.1.1.1.1), countP_cont b2 _ (cont_bits b2 hc.1.1.1.2),
        countP_cont b3 _ (cont_bits b3 hc.1.1.2), h1, h2, List.length_cons]
      omega

/-- C15: on a well-formed UTF-8 string `utf8_len` is the number of encoded
characters (code points), which is the number of bytes that are not continuation
bytes (top two bits `10`), not the number of bytes. -/
theorem utf8_len_counts_characters (s : Bytes) (cps : List Nat) (h : decode s = some cps) :
    utf8_len s = cps.length ∧
      utf8_len s = s.countP (fun c => decide (¬ (c &&& 0xC0 = 0x80))) := by
  obtain ⟨h1, h2⟩ := decode_count_aux s.length s cps (Nat.le_refl _) h
  rw [utf8_len_eq_lenList, h1, h2]
  exact ⟨rfl, rfl⟩

/-- The theorem of C15 at the 9 bytes of "Дож€": 4 characters. -/
theorem utf8_len_counts_characters_witness :
    decode [0xD0, 0x94, 0xD0, 0xBE, 0xD0, 0xB6, 0xE2, 0x82, 0xAC]
      = some [0x414, 0x43E, 0x436, 0x20AC] ∧
    utf8_len [0xD0, 0x94, 0xD0, 0xBE, 0xD0, 0xB6, 0xE2, 0x82, 0xAC] = 4 ∧
    utf8_len [0xD0, 0x94, 0xD0, 0xBE, 0xD0, 0xB6, 0xE2, 0x82, 0xAC] =
      [0xD0, 0x94, 0xD0, 0xBE, 0xD0, 0xB6, 0xE2, 0x82, 0xAC].countP
        (fun c => decide (¬ (c &&& 0xC0 = 0x80))) :=
  ⟨by decide,
    utf8_len_counts_characters [0xD0, 0x94, 0xD0, 0xBE, 0xD0, 0xB6, 0xE2, 0x82, 0xAC]
      [0x414, 0x43E, 0x436, 0x20AC] (by decide)⟩

/-- One step of the decomposition of a well-formed string into its characters,
seen from the right: if the claim holds for `rest`, it holds for one more
character in front. -/
theorem decode_snoc_step (b : Nat) (tail rest : Bytes) (cp : Nat) (t : List Nat)
    (hb : ¬ (b &&& 0xC0 = 0x80)) (htail : ∀ c ∈ tail, c &&& 0xC0 = 0x80)
    (hdec : ∀ r u, decode r = some u → decode (b :: (tail ++ r)) = some (cp :: u))
    (ht : decode rest = some t)
    (hrest : rest ≠ [] → ∃ init lead conts, rest = init ++ lead :: conts ∧
      decode init = some t.dropLast ∧ ¬ (lead &&& 0xC0 = 0x80) ∧
      (∀ c ∈ conts, c &&& 0xC0 = 0x80) ∧ t ≠ []) :
    ∃ init lead conts, b :: (tail ++ rest) = init ++ lead :: conts ∧
      decode init = some (cp :: t).dropLast ∧ ¬ (lead &&& 0xC0 = 0x80) ∧
      (∀ c ∈ conts, c &&& 0xC0 = 0x80) ∧ cp :: t ≠ [] := by
  by_cases hr : rest = []
  · subst hr
    rw [decode_nil] at ht
    cases ht
    exact ⟨[], b, tail, by simp, by simp [decode_nil], hb, htail, by simp⟩
  · obtain ⟨init, lead, conts, hs, hi, hl, hc, htne⟩ := hrest hr
    refine ⟨b :: (tail ++ init), lead, conts, ?_, ?_, hl, hc, by simp⟩
    · rw [hs]; simp
    · rw [hdec init _ hi, List.dropLast_cons_of_ne_nil htne]

theorem decode_snoc_aux (n : Nat) : ∀ (s : Bytes) (cps : List Nat), s.length ≤ n →
    decode s = some cps → s ≠ [] →
    ∃ init lead conts, s = init ++ lead :: conts ∧
      decode init = some cps.dropLast ∧ ¬ (lead &&& 0xC0 = 0x80) ∧
      (∀ c ∈ conts, c &&& 0xC0 = 0x80) ∧ cps ≠ [] := by
  induction n with
  | zero =>
    intro s cps hs _ hne
    exact absurd (List.eq_nil_of_length_eq_zero (by omega)) hne
  | succ n ih =>
    intro s cps hs hd hne
    rcases decode_cases s cps hd with ⟨rfl, rfl⟩ | ⟨b, rest, t, rfl, hb, ht, rfl⟩ |
      ⟨b, b1, rest, t, rfl, hb, hc, ht, rfl⟩ | ⟨b, b1, b2, rest, t, rfl, hb, hc, ht, rfl⟩ |
      ⟨b, b1, b2, b3, rest, t, rfl, hb, hc, ht, rfl⟩
    · exact absurd rfl hne
    · have h := decode_snoc_step b [] rest b t (notCont_bits b (Or.inl hb)) (by simp)
        (by intro r u hu; simp [decode_ascii b r hb, hu]) ht
        (ih rest t (by simp at hs; omega) ht)
      simpa using h
    · have h := decode_snoc_step b [b1] rest ((b - 0xC0) * 64 + (b1 - 0x80)) t (notCont_bits b (Or.inr (by omega)))
        (by intro c hcm; rw [List.mem_singleton.mp hcm]; exact cont_bits b1 hc)
        (by intro r u hu; simp [decode_two b b1 r hb hc, hu]) ht
        (ih rest t (by simp at hs; omega) ht)
      simpa using h
    · have hc2 := hc
      simp only [Bool.and_eq_true] at hc2
      have h := decode_snoc_step b [b1, b2] rest
        ((b - 0xE0) * 4096 + (b1 - 0x80) * 64 + (b2 - 0x80)) t (notCont_bits b (Or.inr (by omega)))
        (by
          intro c hcm
          simp only [List.mem_cons, List.mem_singleton, List.not_mem_nil, or_false] at hcm
          rcases hcm with rfl | rfl
          · exact cont_bits _ hc2.1.1.1
          · exact cont_bits _ hc2.1.1.2)
        (by intro r u hu; simp [decode_three b b1 b2 r hb hc, hu]) ht
        (ih rest t (by simp at hs; omega) ht)
      simpa using h
    · have hc2 := hc
      simp only [Bool.and_eq_true] at hc2
      have h := decode_snoc_step b [b1, b2, b3] rest
        ((b - 0xF0) * 262144 + (b1 - 0x80) * 4096 + (b2 - 0x80) * 64 + (b3 - 0x80)) t (notCont_bits b (Or.inr (by omega)))
        (by
          intro c hcm
          simp only [List.mem_cons, List.mem_singleton, List.not_mem_nil, or_false] at hcm
          rcases hcm with rfl | rfl | rfl
          · exact cont_bits _ hc2.1.1.1.1
          · exact cont_bits _ hc2.1.1.1.2
          · exact cont_bits _ hc2.1.1.2)
        (by intro r u hu; simp [decode_four b b1 b2 b3 r hb hc, hu]) ht
        (ih rest t (by simp at hs; omega) ht)
      simpa using h

theorem pop_utf8_nil : pop_utf8 [] = [] := rfl

/-- C16: `pop_utf8` leaves the empty string unchanged, and from a non-empty
well-formed UTF-8 string with code points `cps` it removes exactly the last encoded
character: the result is a byte-prefix of `s`, it is well-formed with code points
`cps` without the last one, and its character count is one less. -/
theorem pop_utf8_removes_last_character (s : Bytes) (cps : List Nat) (hne : s ≠ [])
    (h : decode s = some cps) :
    pop_utf8 [] = [] ∧ pop_utf8 s <+: s ∧ pop_utf8 s ≠ s ∧
      wellFormed (pop_utf8 s) = true ∧ decode (pop_utf8 s) = some cps.dropLast ∧
      utf8_len (pop_utf8 s) = utf8_len s - 1 := by
  obtain ⟨init, lead, conts, rfl, hi, hl, hc, hcps⟩ :=
    decode_snoc_aux s.length s cps (Nat.le_refl _) h hne
  rw [pop_utf8_char init conts lead hl hc]
  have h1 := (decode_count_aux _ _ _ (Nat.le_refl _) h).1
  have h2 := (decode_count_aux _ _ _ (Nat.le_refl _) hi).1
  refine ⟨pop_utf8_nil, List.prefix_append _ _, ?_, by simp [wellFormed, hi], hi, ?_⟩
  · intro e
    have := congrArg List.length e
    simp at this
  · rw [utf8_len_eq_lenList, utf8_len_eq_lenList, h1, h2, List.length_dropLast]

/-- The theorem of C16 at the bytes of "ж€": the three bytes of "€" are removed. -/
theorem pop_utf8_removes_last_character_witness :
    ([0xD0, 0xB6, 0xE2, 0x82, 0xAC] : Bytes) ≠ [] ∧
    decode [0xD0, 0xB6, 0xE2, 0x82, 0xAC] = some [0x436, 0x20AC] ∧
    pop_utf8 [0xD0, 0xB6, 0xE2, 0x82, 0xAC] = [0xD0, 0xB6] ∧
    decode (pop_utf8 [0xD0, 0xB6, 0xE2, 0x82, 0xAC]) = some [0x436] ∧
    utf8_len (pop_utf8 [0xD0, 0xB6, 0xE2, 0x82, 0xAC]) = 2 - 1 :=
  ⟨by decide, by decide, by decide,
    (pop_utf8_removes_last_character [0xD0, 0xB6, 0xE2, 0x82, 0xAC] [0x436, 0x20AC]
      (by decide) (by decide)).2.2.2.2.1,
    (pop_utf8_removes_last_character [0xD0, 0xB6, 0xE2, 0x82, 0xAC] [0x436, 0x20AC]
      (by decide) (by decide)).2.2.2.2.2⟩

theorem fold_clean_ne_dash (w : Bytes) : to_lower_ru_utf8 (clean w) ≠ [0x2D] := by
  intro h
  have hlen : (clean w).length = 1 := by
    have h1 := congrArg List.length h
    unfold to_lower_ru_utf8 at h1
    rw [toLowerLoop_length] at h1
    exact h1
  obtain ⟨b, hc⟩ := List.length_eq_one.mp hlen
  obtain ⟨_, _, _, _, _, hends⟩ := clean_decomp w
  have hne : clean w ≠ [] := by rw [hc]; simp
  have hb := (hends hne).1
  simp only [hc, List.head_cons] at hb
  have hb2 : ¬ ((0x21 ≤ b ∧ b ≤ 0x2F) ∨ (0x3A ≤ b ∧ b ≤ 0x40) ∨ (0x5B ≤ b ∧ b ≤ 0x60) ∨
      (0x7B ≤ b ∧ b ≤ 0x7E)) := by
    rw [← ispunct_ranges, hb]
    decide
  rw [hc, to_lower_eq_lowerList] at h
  by_cases hA : b < 0x80
  · rw [lowerList_ascii b [] hA, lowerList_nil] at h
    have h2 : tolower b = 0x2D := by simpa using h
    unfold tolower at h2
    split_ifs at h2 <;> omega
  · rw [lowerList_single b hA] at h
    have h2 : b = 0x2D := by simpa using h
    omega

/-- C17: the cleaned and folded form of a raw token is never the one-byte string
"-", so the discard test of the driver succeeds exactly when that form is empty,
and the display sequence keeps exactly the non-empty forms. -/
theorem dash_test_never_decides (w : Bytes) (toks : List Bytes) :
    to_lower_ru_utf8 (clean w) ≠ [0x2D] ∧
    (((to_lower_ru_utf8 (clean w)).isEmpty || to_lower_ru_utf8 (clean w) == [0x2D]) = true ↔
      to_lower_ru_utf8 (clean w) = []) ∧
    readWords toks [] =
      (toks.map (fun w => to_lower_ru_utf8 (clean w))).filter (fun w => decide (w ≠ [])) := by
  have h := fold_clean_ne_dash w
  refine ⟨h, ?_, ?_⟩
  · simp [h, List.isEmpty_iff]
  · rw [readWords_filter]
    apply List.filter_congr
    intro x hx
    obtain ⟨t, _, rfl⟩ := List.mem_map.mp hx
    simp [fold_clean_ne_dash t]

/-- What an applied table rule does, for arbitrary bytes: the token is `x ++ suf`
and the stem is `x`. -/
theorem stem_rule_split (s suf : Bytes) (k : Nat) (hL : 3 < utf8_len s)
    (her : ends_with s (ru_e ++ ru_r) = false)
    (hrule : suffixes.find? (fun p => ends_with s p.1 && decide (utf8_len s > p.2 + 1))
      = some (suf, k)) :
    ∃ x, s = x ++ suf ∧ stem s = x ∧ (suf, k) ∈ suffixes ∧ utf8_len s > k + 1 := by
  have hst : stem s = popN k s := by
    rw [stem_table_find s hL her, hrule]
  have hmem : (suf, k) ∈ suffixes := List.mem_of_find?_eq_some hrule
  have hpred := List.find?_some hrule
  simp only [Bool.and_eq_true, decide_eq_true_eq] at hpred
  obtain ⟨hends, hgt⟩ := hpred
  obtain ⟨hpairs, hk, _, _⟩ := suffixes_shape (suf, k) hmem
  simp only at hpairs hk
  obtain ⟨x, rfl⟩ := ends_with_split s suf hends
  refine ⟨x, rfl, ?_, hmem, hgt⟩
  rw [hst, ← hk]
  exact popN_pairs suf x hpairs

/-- Every suffix of the table has as many characters as its strip count. -/
theorem suffixes_counts : ∀ p ∈ suffixes,
    utf8_len p.1 = p.2 ∧ (decode p.1).map List.length = some p.2 := by
  decide

/-- C18: every entry `(suf, k)` of the suffix table has `k` equal to the number of
characters of `suf`, and whenever `stem` applies a table rule `(suf, k)` to a
token `s`, for arbitrary bytes `s`, it removes exactly the bytes of the matched
suffix: `stem s ++ suf = s`. -/
theorem stem_strips_matched_suffix (s suf : Bytes) (k : Nat) (hL : 3 < utf8_len s)
    (her : ends_with s (ru_e ++ ru_r) = false)
    (hrule : suffixes.find? (fun p => ends_with s p.1 && decide (utf8_len s > p.2 + 1))
      = some (suf, k)) :
    (∀ p ∈ suffixes, utf8_len p.1 = p.2 ∧ (decode p.1).map List.length = some p.2) ∧
      stem s ++ suf = s := by
  obtain ⟨x, hs, hx, _, _⟩ := stem_rule_split s suf k hL her hrule
  refine ⟨suffixes_counts, ?_⟩
  rw [hx]
  exact hs.symm

/-- The theorem of C18 at the malformed token "ABC", 0xC0, 0xAF followed by "ам":
the rule ("ам", 2) is applied and removes exactly the four bytes of "ам". -/
theorem stem_strips_matched_suffix_witness :
    3 < utf8_len [0x41, 0x42, 0x43, 0xC0, 0xAF, 0xD0, 0xB0, 0xD0, 0xBC] ∧
    ends_with [0x41, 0x42, 0x43, 0xC0, 0xAF, 0xD0, 0xB0, 0xD0, 0xBC] (ru_e ++ ru_r) = false ∧
    suffixes.find? (fun p =>
      ends_with [0x41, 0x42, 0x43, 0xC0, 0xAF, 0xD0, 0xB0, 0xD0, 0xBC] p.1 &&
      decide (utf8_len [0x41, 0x42, 0x43, 0xC0, 0xAF, 0xD0, 0xB0, 0xD0, 0xBC] > p.2 + 1))
        = some (ru_a ++ ru_m, 2) ∧
    wellFormed [0x41, 0x42, 0x43, 0xC0, 0xAF, 0xD0, 0xB0, 0xD0, 0xBC] = false ∧
    stem [0x41, 0x42, 0x43, 0xC0, 0xAF, 0xD0, 0xB0, 0xD0, 0xBC] ++ (ru_a ++ ru_m)
      = [0x41, 0x42, 0x43, 0xC0, 0xAF, 0xD0, 0xB0, 0xD0, 0xBC] :=
  ⟨by decide, by decide, by decide, by decide,
    (stem_strips_matched_suffix [0x41, 0x42, 0x43, 0xC0, 0xAF, 0xD0, 0xB0, 0xD0, 0xBC]
      (ru_a ++ ru_m) 2 (by decide) (by decide) (by decide)).2⟩

theorem stem_ne_nil (s : Bytes) (hs : s ≠ []) : stem s ≠ [] := by
  by_cases hL : utf8_len s ≤ 3
  · have e : stem s = s := by unfold stem; dsimp only; rw [if_pos hL]
    rw [e]; exact hs
  · have hL2 : 3 < utf8_len s := by omega
    by_cases her : ends_with s (ru_e ++ ru_r) = true
    · have e : stem s = pop_utf8 (pop_utf8 s) ++ ru_r := by
        unfold stem; dsimp only
        rw [if_neg hL, her, Bool.true_and, if_pos (by simpa using hL2)]
      rw [e]
      simp [ru_r]
    · have her2 : ends_with s (ru_e ++ ru_r) = false := by simpa using her
      cases hf : suffixes.find? (fun p => ends_with s p.1 && decide (utf8_len s > p.2 + 1)) with
      | none =>
        have e : stem s = s := by rw [stem_table_find s hL2 her2, hf]
        rw [e]; exact hs
      | some p =>
        obtain ⟨suf, k⟩ := p
        obtain ⟨x, hsx, hx, hmem, hgt⟩ := stem_rule_split s suf k hL2 her2 hf
        rw [hx]
        intro h0
        subst h0
        have hk := (suffixes_counts (suf, k) hmem).1
        simp only [List.nil_append] at hsx
        rw [hsx] at hgt
        simp only at hk
        omega

/-- C20: `stem` never turns a non-empty token into the empty string, for arbitrary
bytes; hence every key of the frequency table built by the driver is a non-empty
string. -/
theorem stem_keys_nonempty (s : Bytes) (toks : List Bytes) (hs : s ≠ []) :
    stem s ≠ [] ∧ ∀ key ∈ (process_tokens toks).2.1, key ≠ [] := by
  refine ⟨stem_ne_nil s hs, ?_⟩
  intro key hkey
  simp only [process_tokens] at hkey
  rw [countWords_eq] at hkey
  simp only at hkey
  rw [firstOccurrences_mem] at hkey
  obtain ⟨w, hw, rfl⟩ := List.mem_map.mp hkey
  apply stem_ne_nil
  rw [readWords_filter] at hw
  have := (List.mem_filter.mp hw).2
  simp only [decide_eq_true_eq] at this
  exact this.1

/-- The theorem of C20 at the one-letter token "я" and at the token list
"добро", "-", "я". -/
theorem stem_keys_nonempty_witness :
    ([0xD1, 0x8F] : Bytes) ≠ [] ∧ stem [0xD1, 0x8F] ≠ [] ∧
    ∀ key ∈ (process_tokens [[0xD0, 0xB4, 0xD0, 0xBE, 0xD0, 0xB1, 0xD1, 0x80, 0xD0, 0xBE],
      [0x2D], [0xD1, 0x8F]]).2.1, key ≠ [] :=
  ⟨by decide, stem_keys_nonempty [0xD1, 0x8F] _ (by decide)⟩

set_option maxRecDepth 100000 in
/-- In the table no suffix is an ending of (or equal to) a suffix that comes
later. -/
theorem suffixes_order : suffixes.Pairwise
    (fun p q => ¬ (p.1.length ≤ q.1.length ∧ ends_with q.1 p.1 = true)) := by
  decide

theorem ends_with_of_both (s a b : Bytes) (ha : ends_with s a = true)
    (hb : ends_with s b = true) (hlen : a.length ≤ b.length) : ends_with b a = true := by
  obtain ⟨x, hx⟩ := ends_with_split s a ha
  obtain ⟨y, hy⟩ := ends_with_split s b hb
  have h1 : a <:+ s := ⟨x, hx.symm⟩
  have h2 : b <:+ s := ⟨y, hy.symm⟩
  obtain ⟨z, hz⟩ := List.suffix_of_suffix_length_le h1 h2 hlen
  rw [← hz]
  exact ends_with_append z a

theorem find?_eq_head?_filter (p : Bytes × Nat → Bool) (l : List (Bytes × Nat)) :
    l.find? p = (l.filter p).head? := by
  induction l with
  | nil => rfl
  | cons a l ih =>
    by_cases h : p a = true
    · simp only [List.find?_cons, List.filter_cons, h, if_true, List.head?_cons]
    · have h2 : p a = false := by simpa using h
      simp only [List.find?_cons, List.filter_cons, h2, ih, Bool.false_eq_true, if_false]

theorem longestRule_mem (l : List (Bytes × Nat)) (q : Bytes × Nat)
    (h : longestRule l = some q) : q ∈ l := by
  induction l generalizing q with
  | nil =>
    have e : longestRule [] = none := rfl
    rw [e] at h
    cases h
  | cons p rest ih =>
    unfold longestRule at h
    cases hr : longestRule rest with
    | none =>
      rw [hr] at h
      simp only [Option.some.injEq] at h
      rw [← h]; exact List.mem_cons_self _ _
    | some r =>
      rw [hr] at h
      simp only at h
      split_ifs at h
      · simp only [Option.some.injEq] at h
        rw [← h]; exact List.mem_cons_of_mem _ (ih r hr)
      · simp only [Option.some.injEq] at h
        rw [← h]; exact List.mem_cons_self _ _

theorem longestRule_eq_head? (l : List (Bytes × Nat))
    (h : l.Pairwise (fun p q => q.1.length < p.1.length)) : longestRule l = l.head? := by
  cases l with
  | nil => rfl
  | cons p rest =>
    have hp := (List.pairwise_cons.mp h).1
    unfold longestRule
    cases hr : longestRule rest with
    | none => rfl
    | some r =>
      have := hp r (longestRule_mem rest r hr)
      simp only [List.head?_cons]
      rw [if_neg (by omega)]

/-- Among the rules applicable to one token, an earlier rule of the table always
has a longer suffix than a later one. -/
theorem applicable_order (s : Bytes) : (suffixes.filter (applicable s)).Pairwise
    (fun p q => q.1.length < p.1.length) := by
  have h1 := List.Pairwise.and_mem.mp (suffixes_order.filter (applicable s))
  refine h1.imp ?_
  intro p q ⟨hp, hq, hpq⟩
  have hpa := (List.mem_filter.mp hp).2
  have hqa := (List.mem_filter.mp hq).2
  simp only [applicable, Bool.and_eq_true] at hpa hqa
  by_contra hlt
  exact hpq ⟨by omega, ends_with_of_both s p.1 q.1 hpa.1 hqa.1 (by omega)⟩

theorem find_eq_longest (s : Bytes) :
    suffixes.find? (applicable s) = longestRule (suffixes.filter (applicable s)) := by
  rw [longestRule_eq_head? _ (applicable_order s), find?_eq_head?_filter]

/-- C19: for the fixed table first-match-wins coincides with longest-applicable-
match: on a token of more than 3 characters not ending in "ер" the rule chosen by
`stem` (the first applicable one) is the longest applicable rule, every other
applicable rule has a strictly shorter suffix, and `stem` agrees with the stemmer
that picks the longest applicable suffix. -/
theorem first_match_is_longest_match (s : Bytes) (hL : 3 < utf8_len s)
    (her : ends_with s (ru_e ++ ru_r) = false) :
    suffixes.find? (fun p => ends_with s p.1 && decide (utf8_len s > p.2 + 1)) =
      longestRule (suffixes.filter (applicable s)) ∧
    (∀ p, suffixes.find? (fun p => ends_with s p.1 && decide (utf8_len s > p.2 + 1)) = some p →
      stem s = popN p.2 s ∧
      ∀ q ∈ suffixes, applicable s q = true → q ≠ p → q.1.length < p.1.length) ∧
    stem s = stemLongest s := by
  have hfl := find_eq_longest s
  refine ⟨hfl, ?_, ?_⟩
  · intro p hp
    refine ⟨by rw [stem_table_find s hL her, hp], ?_⟩
    intro q hq hqa hqp
    have hA := applicable_order s
    have hhead : (suffixes.filter (applicable s)).head? = some p := by
      rw [← find?_eq_head?_filter]; exact hp
    have hqA : q ∈ suffixes.filter (applicable s) := List.mem_filter.mpr ⟨hq, hqa⟩
    cases hl : suffixes.filter (applicable s) with
    | nil => rw [hl] at hqA; simp at hqA
    | cons a rest =>
      rw [hl] at hA hhead hqA
      simp only [List.head?_cons, Option.some.injEq] at hhead
      subst hhead
      rcases List.mem_cons.mp hqA with e | e
      · exact absurd e hqp
      · exact (List.pairwise_cons.mp hA).1 q e
  · rw [stem_table_find s hL her]
    unfold stemLongest
    dsimp only
    rw [if_neg (by omega), her, Bool.false_and, if_neg (by simp), ← hfl]
    rfl

/-- The theorem of C19 at "добрыми": the applicable rules are ("ыми", 3) and
("и", 1), the first of them is the longest, and both stemmers give "добр". -/
theorem first_match_is_longest_match_witness :
    3 < utf8_len [0xD0, 0xB4, 0xD0, 0xBE, 0xD0, 0xB1, 0xD1, 0x80, 0xD1, 0x8B, 0xD0, 0xBC,
      0xD0, 0xB8] ∧
    ends_with [0xD0, 0xB4, 0xD0, 0xBE, 0xD0, 0xB1, 0xD1, 0x80, 0xD1, 0x8B, 0xD0, 0xBC,
      0xD0, 0xB8] (ru_e ++ ru_r) = false ∧
    suffixes.filter (applicable [0xD0, 0xB4, 0xD0, 0xBE, 0xD0, 0xB1, 0xD1, 0x80, 0xD1, 0x8B,
      0xD0, 0xBC, 0xD0, 0xB8]) = [(ru_y ++ ru_m ++ ru_i, 3), (ru_i, 1)] ∧
    stemLongest [0xD0, 0xB4, 0xD0, 0xBE, 0xD0, 0xB1, 0xD1, 0x80, 0xD1, 0x8B, 0xD0, 0xBC,
      0xD0, 0xB8] = [0xD0, 0xB4, 0xD0, 0xBE, 0xD0, 0xB1, 0xD1, 0x80] ∧
    stem [0xD0, 0xB4, 0xD0, 0xBE, 0xD0, 0xB1, 0xD1, 0x80, 0xD1, 0x8B, 0xD0, 0xBC, 0xD0, 0xB8] =
      stemLongest [0xD0, 0xB4, 0xD0, 0xBE, 0xD0, 0xB1, 0xD1, 0x80, 0xD1, 0x8B, 0xD0, 0xBC,
        0xD0, 0xB8] :=
  ⟨by decide, by decide, by decide, by decide,
    (first_match_is_longest_match
      [0xD0, 0xB4, 0xD0, 0xBE, 0xD0, 0xB1, 0xD1, 0x80, 0xD1, 0x8B, 0xD0, 0xBC, 0xD0, 0xB8]
      (by decide) (by decide)).2.2⟩

/-! ## No access out of bounds -/

theorem readAt_lt (s : Bytes) (i : Nat) (h : i < s.length) : readAt s i = some s[i] := by
  simp [readAt, h]

theorem writeAt_lt (s : Bytes) (i v : Nat) (h : i < s.length) :
    writeAt s i v = some (s.set i v) := by
  simp [writeAt, h]

theorem toLowerLoopChecked_eq (fuel : Nat) : ∀ (s : Bytes) (i : Nat), s.length - i ≤ fuel →
    toLowerLoopChecked fuel s i = some (toLowerLoop fuel s i) := by
  induction fuel with
  | zero =>
    intro s i hf
    simp only [toLowerLoopChecked, toLowerLoop]
    rw [if_neg (by omega)]
  | succ n ih =>
    intro s i hf
    unfold toLowerLoopChecked toLowerLoop
    by_cases h : i < s.length
    · rw [if_pos h, dif_pos h, readAt_lt s i h]
      dsimp only [Option.bind_eq_bind, Option.some_bind]
      have hp := skipStep_pos s[i]
      by_cases hA : s[i] < 0x80
      · rw [if_pos hA, if_pos hA, writeAt_lt s i _ h]
        dsimp only [Option.some_bind]
        exact ih _ _ (by simp; omega)
      · rw [if_neg hA, if_neg hA]
        by_cases hD : s[i] = 0xD0 ∧ i + 1 < s.length
        · rw [if_pos hD, dif_pos hD, readAt_lt s (i + 1) hD.2]
          dsimp only [Option.some_bind]
          split_ifs
          · rw [writeAt_lt s i _ h]
            dsimp only [Option.some_bind]
            rw [writeAt_lt _ (i + 1) _ (by simp; omega)]
            dsimp only [Option.some_bind]
            exact ih _ _ (by simp; omega)
          · rw [writeAt_lt s (i + 1) _ hD.2]
            dsimp only [Option.some_bind]
            exact ih _ _ (by simp; omega)
          · rw [writeAt_lt s i _ h]
            dsimp only [Option.some_bind]
            rw [writeAt_lt _ (i + 1) _ (by simp; omega)]
            dsimp only [Option.some_bind]
            exact ih _ _ (by simp; omega)
          · exact ih _ _ (by omega)
        · rw [if_neg hD, dif_neg hD]
          exact ih _ _ (by omega)
    · rw [if_neg h, dif_neg h]

theorem readAt_last (s : Bytes) (h : s ≠ []) : readAt s (s.length - 1) = some (s.getLast h) := by
  rw [readAt_lt s _ (Nat.sub_lt (List.length_pos.mpr h) Nat.one_pos),
    List.getLast_eq_getElem]

theorem cleanBackChecked_eq (fuel : Nat) : ∀ s : Bytes, s.length ≤ fuel →
    cleanBackChecked fuel s = some (cleanBack fuel s) := by
  induction fuel with
  | zero =>
    intro s hs
    have : s = [] := List.eq_nil_of_length_eq_zero (by omega)
    subst this
    rfl
  | succ n ih =>
    intro s hs
    unfold cleanBackChecked cleanBack
    by_cases hne : s ≠ []
    · rw [if_pos hne, dif_pos hne, readAt_last s hne]
      dsimp only [Option.bind_eq_bind, Option.some_bind]
      by_cases hp : ispunct (s.getLast hne) = true
      · rw [if_pos hp, if_pos hp]
        simp only [popBackChecked, if_neg hne, Option.some_bind]
        exact ih _ (by simp; omega)
      · rw [if_neg hp, if_neg hp]
    · rw [if_neg hne, dif_neg hne]

theorem cleanFrontChecked_eq (fuel : Nat) : ∀ s : Bytes, s.length ≤ fuel →
    cleanFrontChecked fuel s = some (cleanFront s) := by
  induction fuel with
  | zero =>
    intro s hs
    have : s = [] := List.eq_nil_of_length_eq_zero (by omega)
    subst this
    rfl
  | succ n ih =>
    intro s hs
    cases s with
    | nil => rfl
    | cons b rest =>
      unfold cleanFrontChecked cleanFront
      rw [if_pos (by simp), readAt_lt _ 0 (by simp)]
      dsimp only [Option.bind_eq_bind, Option.some_bind]
      simp only [List.getElem_cons_zero]
      by_cases hp : ispunct b = true
      · rw [if_pos hp, if_pos hp]
        simp only [eraseFirstChecked, List.tail_cons, Option.some_bind, reduceCtorEq, if_false]
        exact ih _ (by simpa using hs)
      · rw [if_neg hp, if_neg hp]

theorem clean_checked_eq (s : Bytes) : clean_checked s = some (clean s) := by
  unfold clean_checked clean
  rw [cleanBackChecked_eq _ _ (Nat.le_refl _)]
  dsimp only [Option.bind_eq_bind, Option.some_bind]
  exact cleanFrontChecked_eq _ _ (Nat.le_refl _)

theorem popScanChecked_eq (s : Bytes) : ∀ (i : Nat) (h : i < s.length),
    popScanChecked s i = some (popScan s i h) := by
  intro i
  induction i with
  | zero => intro h; rfl
  | succ i ih =>
    intro h
    unfold popScanChecked popScan
    rw [readAt_lt s (i + 1) h]
    dsimp only [Option.bind_eq_bind, Option.some_bind]
    split_ifs
    · exact ih _
    · rfl

theorem popScan_le (s : Bytes) : ∀ (i : Nat) (h : i < s.length), popScan s i h ≤ i := by
  intro i
  induction i with
  | zero => intro h; exact Nat.le_refl _
  | succ i ih =>
    intro h
    unfold popScan
    split_ifs
    · exact Nat.le_succ_of_le (ih _)
    · exact Nat.le_refl _

theorem pop_utf8_checked_eq (s : Bytes) : pop_utf8_checked s = some (pop_utf8 s) := by
  unfold pop_utf8_checked pop_utf8
  by_cases h : s = []
  · rw [if_pos h, dif_pos h]
  · have hlt : s.length - 1 < s.length := Nat.sub_lt (List.length_pos.mpr h) Nat.one_pos
    rw [if_neg h, dif_neg h, popScanChecked_eq s _ hlt]
    dsimp only [Option.bind_eq_bind, Option.some_bind]
    have := popScan_le s _ hlt
    simp only [eraseFromChecked]
    rw [if_pos (by omega)]

theorem utf8LenLoopChecked_eq (fuel : Nat) : ∀ (s : Bytes) (i n : Nat), s.length - i ≤ fuel →
    utf8LenLoopChecked fuel s i n = some (utf8LenLoop fuel s i n) := by
  induction fuel with
  | zero =>
    intro s i n hf
    simp only [utf8LenLoopChecked, utf8LenLoop]
    rw [if_neg (by omega)]
  | succ m ih =>
    intro s i n hf
    unfold utf8LenLoopChecked utf8LenLoop
    by_cases h : i < s.length
    · rw [if_pos h, dif_pos h, readAt_lt s i h]
      dsimp only [Option.bind_eq_bind, Option.some_bind]
      have := lenStep_pos s[i]
      exact ih _ _ _ (by omega)
    · rw [if_neg h, dif_neg h]

theorem utf8_len_checked_eq (s : Bytes) : utf8_len_checked s = some (utf8_len s) :=
  utf8LenLoopChecked_eq _ _ _ _ (by omega)

theorem ends_with_checked_eq (s suf : Bytes) :
    ends_with_checked s suf = some (ends_with s suf) := by
  unfold ends_with_checked ends_with
  by_cases h : suf.length ≤ s.length
  · rw [if_pos h, if_pos (Nat.sub_le _ _)]
    simp [h]
  · rw [if_neg h]
    simp [h]

theorem popNChecked_eq (k : Nat) : ∀ s : Bytes, popNChecked k s = some (popN k s) := by
  induction k with
  | zero => intro s; rfl
  | succ k ih =>
    intro s
    unfold popNChecked popN
    rw [pop_utf8_checked_eq]
    dsimp only [Option.bind_eq_bind, Option.some_bind]
    exact ih _

theorem stemLoopChecked_eq (s : Bytes) (L : Nat) (tbl : List (Bytes × Nat)) :
    stemLoopChecked s L tbl = some (stemLoop s L tbl) := by
  induction tbl with
  | nil => rfl
  | cons p rest ih =>
    obtain ⟨suf, k⟩ := p
    unfold stemLoopChecked stemLoop
    rw [ends_with_checked_eq]
    dsimp only [Option.bind_eq_bind, Option.some_bind]
    split_ifs
    · exact popNChecked_eq k s
    · exact ih

theorem stem_checked_eq (s : Bytes) : stem_checked s = some (stem s) := by
  unfold stem_checked stem
  rw [utf8_len_checked_eq]
  dsimp only [Option.bind_eq_bind, Option.some_bind]
  by_cases hL : utf8_len s ≤ 3
  · rw [if_pos hL, if_pos hL]
  · rw [if_neg hL, if_neg hL, ends_with_checked_eq]
    dsimp only [Option.bind_eq_bind, Option.some_bind]
    split_ifs
    · rw [pop_utf8_checked_eq]
      dsimp only [Option.bind_eq_bind, Option.some_bind]
      rw [pop_utf8_checked_eq]
      rfl
    · exact stemLoopChecked_eq s _ _

/-- C14: on every byte sequence, malformed ones included, `clean`,
`to_lower_ru_utf8`, `utf8_len`, `pop_utf8` and `stem` finish (within a fuel equal
to the length of the string) and never read or write a byte at an index that is
not below the current length: their bounds-checked executions succeed and return
the values of the functions (while a read or a write at the index `s.length`
itself is rejected by the checks). -/
theorem pipeline_never_out_of_bounds (s : Bytes) :
    readAt s s.length = none ∧ writeAt s s.length 0 = none ∧
    clean_checked s = some (clean s) ∧
    to_lower_ru_utf8_checked s = some (to_lower_ru_utf8 s) ∧
    utf8_len_checked s = some (utf8_len s) ∧
    pop_utf8_checked s = some (pop_utf8 s) ∧
    stem_checked s = some (stem s) :=
  ⟨by simp [readAt], by simp [writeAt], clean_checked_eq s,
    toLowerLoopChecked_eq _ _ _ (by omega), utf8_len_checked_eq s,
    pop_utf8_checked_eq s, stem_checked_eq s⟩

end Words
